import Mathlib

/-!
Verification development for the fallback-aware summarization / classification
core of the Classification-and-Summary repository (files
`src/llm/classification.py` and `src/llm/summarization.py`, duplicated in the
monolithic `src/llm.py`).

Modelling conventions (shallow embedding of the Python code):
* Python `str` is modelled as `List Char`; Python string literals are written
  with `String.toList`.
* Python `float` scores are modelled as exact rationals `ℚ` (the code only
  ever adds the decimal literals `0.01` and `0.2`).
* The regex character class `\s` is modelled by `pyIsSpace` (the six ASCII
  whitespace characters recognised by `\s`; whitespace-only comparisons in the
  claims use ASCII data).
* The regex character class `\w` (Unicode word characters) is modelled by
  `isWordChar`: ASCII alphanumerics, underscore, and every non-ASCII
  character except the non-word punctuation this code itself manipulates
  (the guillemets and curly quotes and the em dash).  This keeps Portuguese accented letters
  word characters, as in Python.
* `str.lower` / `str.upper` are modelled ASCII-only (`lowChar` / `upChar`);
  all case-insensitive data in the code (the `resumo` markers, the request
  verbs) is ASCII.
* The process-wide lazily initialised pipeline cache (`_ZS` / `_SUMMARY`)
  is modelled by explicit state passing: a `Handle` value is threaded through
  `get_zero_shot` / `get_summarizer` and the two engine entry points.  The
  availability of `transformers`, the success of pipeline construction, and
  the behaviour of a live pipeline call are inputs (`ZSEnv` / `SummEnv`);
  a raised exception is the `none` value of the call field.
-/

/-- Python `\s` (ASCII part): space, tab, newline, carriage return,
vertical tab, form feed. -/
def pyIsSpace (c : Char) : Bool :=
  c == ' ' || c == '\t' || c == '\n' || c == '\r' || c == '\x0b' || c == '\x0c'

/-- ASCII lowercasing, written as an explicit 26-case table so that proofs can
case split on it (model of `str.lower` applied characterwise). -/
def lowChar : Char → Char
| 'A' => 'a' | 'B' => 'b' | 'C' => 'c' | 'D' => 'd' | 'E' => 'e' | 'F' => 'f'
| 'G' => 'g' | 'H' => 'h' | 'I' => 'i' | 'J' => 'j' | 'K' => 'k' | 'L' => 'l'
| 'M' => 'm' | 'N' => 'n' | 'O' => 'o' | 'P' => 'p' | 'Q' => 'q' | 'R' => 'r'
| 'S' => 's' | 'T' => 't' | 'U' => 'u' | 'V' => 'v' | 'W' => 'w' | 'X' => 'x'
| 'Y' => 'y' | 'Z' => 'z'
| c => c

/-- ASCII uppercasing (model of `str.upper` applied characterwise, as used by
`t[0].upper()` in `_rb_summary_pt`). -/
def upChar : Char → Char
| 'a' => 'A' | 'b' => 'B' | 'c' => 'C' | 'd' => 'D' | 'e' => 'E' | 'f' => 'F'
| 'g' => 'G' | 'h' => 'H' | 'i' => 'I' | 'j' => 'J' | 'k' => 'K' | 'l' => 'L'
| 'm' => 'M' | 'n' => 'N' | 'o' => 'O' | 'p' => 'P' | 'q' => 'Q' | 'r' => 'R'
| 's' => 'S' | 't' => 'T' | 'u' => 'U' | 'v' => 'V' | 'w' => 'W' | 'x' => 'X'
| 'y' => 'Y' | 'z' => 'Z'
| c => c

/-- Python `\w` (word character), approximated: ASCII alphanumerics and
underscore, plus all non-ASCII characters except the non-word punctuation
manipulated by this code (guillemets, curly quotes, em dash). -/
def isWordChar (c : Char) : Bool :=
  c.isAlphanum || c == '_' ||
    (0x80 ≤ c.val && !(c == '«' || c == '»' || c == '“' || c == '”' || c == '—'))

/-- Sentence-final punctuation used by the `(?<=[.!?])\s+` split. -/
def isPunct (c : Char) : Bool := c == '.' || c == '!' || c == '?'

/-- The strip set `' "«»“”'` used on each candidate sentence. -/
def inQuoteSet (c : Char) : Bool :=
  c == ' ' || c == '"' || c == '«' || c == '»' || c == '“' || c == '”'

/-- Characterwise lowercase of a string (model of `str.lower`). -/
def lowerList (l : List Char) : List Char := l.map lowChar

/-- Strip matching characters from the right end (Python `str.rstrip`). -/
def rstripP (p : Char → Bool) (l : List Char) : List Char :=
  (l.reverse.dropWhile p).reverse

/-- Python `str.strip()`: whitespace removed from both ends. -/
def trimList (l : List Char) : List Char :=
  rstripP pyIsSpace (List.dropWhile pyIsSpace l)

/-- Python `str.strip(' "«»“”')` as applied to each candidate sentence. -/
def stripQuotes (l : List Char) : List Char :=
  rstripP inQuoteSet (List.dropWhile inQuoteSet l)

/-- Case-insensitive prefix test: the pattern is given lowercase, the text
character is lowercased before comparison. -/
def startsWithCI : List Char → List Char → Bool
| [], _ => true
| _ :: _, [] => false
| p :: ps, c :: cs => (lowChar c == p) && startsWithCI ps cs

/-- Plain (case-sensitive) prefix test. -/
def startsWithL : List Char → List Char → Bool
| [], _ => true
| _ :: _, [] => false
| p :: ps, c :: cs => (p == c) && startsWithL ps cs

/-- Python substring containment `needle in hay`. -/
def containsSub (needle : List Char) : List Char → Bool
| [] => needle.isEmpty
| c :: cs => startsWithL needle (c :: cs) || containsSub needle cs

/-- Python `" ".join`-style join (`List.intercalate` written out so proofs can
unfold it one constructor at a time). -/
def joinSep (sep : List Char) : List (List Char) → List Char
| [] => []
| [x] => x
| x :: y :: xs => x ++ sep ++ joinSep sep (y :: xs)

/-- Python slice `l[:m]` for an `int` bound `m` (negative bounds count from
the end, clamped at zero). -/
def pySlice (m : Int) (l : List α) : List α :=
  l.take (if m < 0 then ((l.length : Int) + m).toNat else m.toNat)

/-- `re.sub(r"\s+", " ", raw)`: collapse every whitespace run to one space.
The boolean argument records whether the previous character was whitespace. -/
def collapseAux : Bool → List Char → List Char
| _, [] => []
| prevSp, c :: cs =>
  if pyIsSpace c then
    if prevSp then collapseAux true cs else ' ' :: collapseAux true cs
  else c :: collapseAux false cs

def collapseWs (l : List Char) : List Char := collapseAux false l

/-- `re.findall(r"\w+", text)` word-run count, used for the short-text
threshold.  The boolean argument records whether the previous character was a
word character. -/
def countWordsAux : Bool → List Char → Nat
| _, [] => 0
| inWord, c :: cs =>
  if isWordChar c then (if inWord then 0 else 1) + countWordsAux true cs
  else countWordsAux false cs

def countWordRuns (l : List Char) : Nat := countWordsAux false l

-- ------------------------------------------------------------------
-- Classification (`src/llm/classification.py`)
-- ------------------------------------------------------------------

/-- `DEFAULT_CATEGORIES` from `classification.py`. -/
def DEFAULT_CATEGORIES : List (List Char) :=
  ["Feedback".toList, "Reclamação".toList, "Suporte técnico".toList,
   "Dúvida".toList, "Solicitação de serviço".toList]

/-- The keyword table `rules` from `_fallback_classify`, in source order. -/
def rulesTable : List (List Char × List (List Char)) :=
  [("Reclamação".toList,
     ["erro".toList, "não funciona".toList, "demora".toList, "reclama".toList]),
   ("Suporte técnico".toList,
     ["bug".toList, "instalar".toList, "acesso".toList, "senha".toList,
      "configurar".toList, "técnico".toList]),
   ("Dúvida".toList,
     ["como".toList, "onde".toList, "posso".toList, "duvida".toList,
      "dúvida".toList]),
   ("Solicitação de serviço".toList,
     ["pedido".toList, "solicito".toList, "provisionar".toList,
      "ativar".toList, "criar".toList]),
   ("Feedback".toList,
     ["sugestão".toList, "gostei".toList, "melhorar".toList, "ideia".toList])]

/-- Key deduplication performed by the dict comprehension
`{lbl: 0.01 for lbl in labels}` (first occurrence kept). -/
def dedupAux (seen : List (List Char)) : List (List Char) → List (List Char)
| [] => []
| x :: xs => if x ∈ seen then dedupAux seen xs else x :: dedupAux (x :: seen) xs

def dedupKeys (labels : List (List Char)) : List (List Char) := dedupAux [] labels

/-- `{lbl: 0.01 for lbl in labels}` (insertion-ordered dict as an association
list; scores are exact rationals). -/
def initScores (labels : List (List Char)) : List (List Char × ℚ) :=
  (dedupKeys labels).map (fun l => (l, 1/100))

/-- `scores[lbl] += amt` on the ordered dict. -/
def addScore (scores : List (List Char × ℚ)) (lbl : List Char) (amt : ℚ) :
    List (List Char × ℚ) :=
  scores.map (fun p => if p.1 = lbl then (p.1, p.2 + amt) else p)

/-- One entry of the `for lbl, kws in rules.items()` loop: skipped when the
label is not a key of `scores`, otherwise `0.2` is added per keyword found as
a substring of the lowercased text. -/
def applyRuleEntry (textL : List Char) (scores : List (List Char × ℚ))
    (e : List Char × List (List Char)) : List (List Char × ℚ) :=
  if scores.any (fun p => p.1 = e.1) then
    e.2.foldl
      (fun sc kw => if containsSub kw textL then addScore sc e.1 (1/5) else sc)
      scores
  else scores

def applyRules (textL : List Char) (scores : List (List Char × ℚ)) :
    List (List Char × ℚ) :=
  rulesTable.foldl (applyRuleEntry textL) scores

/-- `max(scores, key=scores.get)`: the first key (in insertion order)
attaining the maximum value; only used on non-empty dicts. -/
def maxKey : List (List Char × ℚ) → List Char
| [] => []
| (k, v) :: rest =>
  (rest.foldl (fun best p => if best.2 < p.2 then p else best) (k, v)).1

/-- `_fallback_classify` from `classification.py`: the rule-based fallback
classifier.  Returns the pair (best label, scores dict). -/
def fallback_classify (text : List Char) (labels : List (List Char)) :
    List Char × List (List Char × ℚ) :=
  let textL := lowerList text
  let labels' := if labels.isEmpty then DEFAULT_CATEGORIES else labels
  let scores := applyRules textL (initScores labels')
  let best := if scores.isEmpty then [] else maxKey scores
  (best, scores)

/-- Score of a label in the scores dict (`0` when absent). -/
def scoreOf (lbl : List Char) (scores : List (List Char × ℚ)) : ℚ :=
  ((scores.lookup lbl).getD 0)

-- ------------------------------------------------------------------
-- Engine state model (the module-level caches `_ZS` / `_SUMMARY`)
-- ------------------------------------------------------------------

/-- A resolved backend handle: a live pipeline, or the `"FALLBACK"` sentinel. -/
inductive Resolved where
  | ready : Resolved
  | fallback : Resolved
deriving DecidableEq, Repr

/-- The module-level cache variable: `none` models the Python `None`
(uninitialized); `some r` models a resolved value. -/
def Handle := Option Resolved

/-- Environment of the zero-shot engine: whether `transformers` imported
(`pipeline is not None`), whether pipeline construction and the smoke test
succeed, and the behaviour of a live pipeline call (`none` = the call raises;
otherwise the ranked label/score lists returned by the model). -/
structure ZSEnv where
  pipelineAvailable : Bool
  loadOk : Bool
  call : List Char → List (List Char) → Option (List (List Char × ℚ))

/-- Environment of the summarization engine: availability, load/smoke-test
success, and the generation behaviour (`none` = the call raises; otherwise
the generated continuation text). -/
structure SummEnv where
  pipelineAvailable : Bool
  loadOk : Bool
  gen : List Char → Option (List Char)

/-- `get_zero_shot` from `classification.py`, with the global `_ZS` made an
explicit input/output.  A cached value is returned as is; `None` triggers
initialization, which resolves to `ready` or to the permanent fallback. -/
def get_zero_shot (env : ZSEnv) : Handle → Resolved × Handle
| some r => (r, some r)
| none =>
  if env.pipelineAvailable && env.loadOk then (.ready, some .ready)
  else (.fallback, some .fallback)

/-- `get_summarizer` from `summarization.py`, with the global `_SUMMARY` made
an explicit input/output. -/
def get_summarizer (env : SummEnv) : Handle → Resolved × Handle
| some r => (r, some r)
| none =>
  if env.pipelineAvailable && env.loadOk then (.ready, some .ready)
  else (.fallback, some .fallback)

/-- The label preparation of `classify_zero_shot_pt`:
`[lbl for lbl in (labels or DEFAULT_CATEGORIES) if lbl]` — an empty *list*
defaults to the built-in categories, then empty *strings* are filtered out
(Python truthiness; no trimming). -/
def filteredLabels (labels : List (List Char)) : List (List Char) :=
  (if labels.isEmpty then DEFAULT_CATEGORIES else labels).filter
    (fun l => !l.isEmpty)

/-- Python dict construction from a pair list (later duplicate keys overwrite
the value at the first position), as in
`{lbl: float(sc) for lbl, sc in zip(out["labels"], out["scores"])}`. -/
def upsert : List (List Char × ℚ) → List Char → ℚ → List (List Char × ℚ)
| [], k, v => [(k, v)]
| (k', v') :: t, k, v =>
  if k' = k then (k', v) :: t else (k', v') :: upsert t k v

def dictOf (l : List (List Char × ℚ)) : List (List Char × ℚ) :=
  l.foldl (fun m p => upsert m p.1 p.2) []

/-- `classify_zero_shot_pt` from `classification.py`.  Returns the
classification result (best label, scores dict) together with the updated
handle.  The model branch also stores a top `"score"` entry in the Python
dict; the modelled result keeps the `"label"`/`"scores"` components the
claims are about. -/
def classify_zero_shot_pt (env : ZSEnv) (st : Handle) (text : List Char)
    (labels : List (List Char)) :
    (List Char × List (List Char × ℚ)) × Handle :=
  let t := trimList text
  let ls := filteredLabels labels
  if t = [] ∨ ls = [] then (([], []), st)
  else
    let rs := get_zero_shot env st
    match rs.1 with
    | .fallback => (fallback_classify t ls, rs.2)
    | .ready =>
      match env.call t ls with
      | none => (fallback_classify t ls, rs.2)
      | some [] => (fallback_classify t ls, rs.2)
      | some ((l0, s0) :: rest) =>
        ((l0, dictOf ((l0, s0) :: rest)), rs.2)

-- ------------------------------------------------------------------
-- Summarization (`src/llm/summarization.py`)
-- ------------------------------------------------------------------

/-- `SHORT_WORDS_THRESHOLD` from `summarization.py`. -/
def SHORT_WORDS_THRESHOLD : Nat := 6

/-- One attempted match of `\bresumo\s*:\s*` (case-insensitive) at the head of
the list: on success, returns the remainder after the match.  (The `\b`
requirement is handled by the caller `subResumoAux`, which only attempts the
match when the previous character is not a word character.) -/
def matchRC : List Char → Option (List Char)
| c1 :: c2 :: c3 :: c4 :: c5 :: c6 :: rest =>
  if lowChar c1 == 'r' && lowChar c2 == 'e' && lowChar c3 == 's' &&
     lowChar c4 == 'u' && lowChar c5 == 'm' && lowChar c6 == 'o' then
    match List.dropWhile pyIsSpace rest with
    | ':' :: r3 => some (List.dropWhile pyIsSpace r3)
    | _ => none
  else none
| _ => none

lemma length_dropWhile_le (p : α → Bool) (l : List α) :
    (List.dropWhile p l).length ≤ l.length := by
  induction l with
  | nil => simp
  | cons a as ih =>
    rw [List.dropWhile_cons]
    split
    · exact Nat.le_trans ih (by simp)
    · simp

lemma matchRC_length {l r : List Char} (h : matchRC l = some r) :
    r.length < l.length := by
  match l with
  | [] => simp [matchRC] at h
  | [c1] => simp [matchRC] at h
  | [c1, c2] => simp [matchRC] at h
  | [c1, c2, c3] => simp [matchRC] at h
  | [c1, c2, c3, c4] => simp [matchRC] at h
  | [c1, c2, c3, c4, c5] => simp [matchRC] at h
  | c1 :: c2 :: c3 :: c4 :: c5 :: c6 :: rest =>
    simp only [matchRC] at h
    split at h
    · split at h
      · rename_i r3 heq
        have h1 : (List.dropWhile pyIsSpace rest).length ≤ rest.length :=
          length_dropWhile_le _ _
        rw [heq] at h1
        have h2 : (List.dropWhile pyIsSpace r3).length ≤ r3.length :=
          length_dropWhile_le _ _
        injection h with h
        subst h
        simp at h1 ⊢
        omega
      · exact absurd h (by simp)
    · exact absurd h (by simp)

/-- Global `re.sub(r"(?i)\bresumo\s*:\s*", "", t)`: left-to-right
non-overlapping removal.  The boolean argument records whether the character
just before the current position (in the original string) is a word
character: the pattern starts with a word character, so `\b` holds exactly
when that flag is false. -/
def subResumoAux : Bool → List Char → List Char
| pw, [] => []
| pw, c :: cs =>
  if pw then c :: subResumoAux (isWordChar c) cs
  else
    match h : matchRC (c :: cs) with
    | some rest => subResumoAux false rest
    | none => c :: subResumoAux (isWordChar c) cs
termination_by pw l => l.length
decreasing_by
  · simp
  · exact matchRC_length h
  · simp

def subResumoColon (l : List Char) : List Char := subResumoAux false l

/-- `re.split(r"(?<=[.!?])\s+", t)`: split on each whitespace run preceded by
sentence-final punctuation.  `cur` is the (reversed) piece being accumulated;
the boolean is whether the previous character was in `[.!?]`. -/
def splitAux : List Char → Bool → List Char → List (List Char)
| cur, _, [] => [cur.reverse]
| cur, pp, c :: cs =>
  if pp && pyIsSpace c then
    cur.reverse :: splitAux [] false (List.dropWhile pyIsSpace cs)
  else splitAux (c :: cur) (isPunct c) cs
termination_by _ _ l => l.length
decreasing_by
  · have : (List.dropWhile pyIsSpace cs).length ≤ cs.length := by
      induction cs with
      | nil => simp
      | cons a as ih =>
        by_cases hp : pyIsSpace a
        · simp [List.dropWhile, hp]; omega
        · simp [List.dropWhile, hp]
    simp; omega
  · simp

def splitSentences (l : List Char) : List (List Char) := splitAux [] false l

/-- One attempted match of `^\s*resumo\s*[-—:]\s*` (case-insensitive) at the
start of a candidate sentence (the residual header marker removal). -/
def matchLR (s : List Char) : Option (List Char) :=
  match List.dropWhile pyIsSpace s with
  | c1 :: c2 :: c3 :: c4 :: c5 :: c6 :: rest =>
    if lowChar c1 == 'r' && lowChar c2 == 'e' && lowChar c3 == 's' &&
       lowChar c4 == 'u' && lowChar c5 == 'm' && lowChar c6 == 'o' then
      match List.dropWhile pyIsSpace rest with
      | d :: ds =>
        if d == '-' || d == '—' || d == ':' then
          some (List.dropWhile pyIsSpace ds)
        else none
      | [] => none
    else none
  | _ => none

/-- `re.sub(r"(?i)^\s*resumo\s*[-—:]\s*", "", s)` (the `^` anchor means at
most the leading occurrence is removed). -/
def subLeadingResumo (s : List Char) : List Char := (matchLR s).getD s

/-- The full per-sentence normalization of `_postprocess_summary`:
`s.strip(' "«»“”')`, residual `resumo` marker removal, `strip()`. -/
def processSentence (s : List Char) : List Char :=
  trimList (subLeadingResumo (stripQuotes s))

/-- The dedup key: `re.sub(r"\W+", "", s.lower())`. -/
def dedupKey (s : List Char) : List Char :=
  (lowerList s).filter isWordChar

/-- The `for s in sents:` accumulation loop of `_postprocess_summary`,
with the `seen` set and the `len(out) >= max_sentences` break. -/
def ppLoop (m : Int) : List (List Char) → List (List Char) →
    List (List Char) → List (List Char)
| _, acc, [] => acc
| seen, acc, s :: rest =>
  let s1 := stripQuotes s
  if s1 = [] then ppLoop m seen acc rest
  else
    let s2 := trimList (subLeadingResumo s1)
    let key := dedupKey s2
    if s2.length < 3 ∨ key ∈ seen then ppLoop m seen acc rest
    else
      let acc' := acc ++ [s2]
      if m ≤ (acc'.length : Int) then acc'
      else ppLoop m (key :: seen) acc' rest

/-- `_postprocess_summary` from `summarization.py`. -/
def _postprocess_summary (raw : List Char) (max_sentences : Int) : List Char :=
  if raw = [] then []
  else
    let t1 := trimList (collapseWs raw)
    let t2 := subResumoColon t1
    let sents := splitSentences t2
    let out := ppLoop max_sentences [] [] sents
    if out = [] then []
    else
      joinSep [' '] out ++
        (if max_sentences < (sents.length : Int) then " ...".toList else [])

/-- Case-insensitive literal match of a (lowercase) pattern at the head,
returning the remainder (used for the request verbs). -/
def dropCI : List Char → List Char → Option (List Char)
| [], rest => some rest
| _ :: _, [] => none
| p :: ps, c :: cs => if lowChar c == p then dropCI ps cs else none

/-- One alternative of `^\s*(solicito|gostaria de|quero|preciso)\s+(.*)$`
after the leading `\s*` has been consumed: the verb (case-insensitive), at
least one whitespace character, then `(.*)$`.  Without `re.DOTALL`, `.` does
not match a newline, and without `re.MULTILINE` the `$` anchor matches at
the end of the string *or just before a newline that is the last character*.
So after the greedy `\s+` run, the remainder must be newline-free
(`group(2)` is the remainder) or have its sole newline as the final
character (`group(2)` is the remainder without that trailing newline);
any other embedded newline makes the whole match fail. -/
def tryVerb (v : List Char) (t : List Char) : Option (List Char) :=
  match dropCI v t with
  | none => none
  | some rest =>
    match rest with
    | [] => none
    | c :: cs =>
      if pyIsSpace c then
        if (List.dropWhile pyIsSpace cs).any (fun x => x == '\n') then
          if (List.dropWhile pyIsSpace cs).getLast? = some '\n' ∧
              ((List.dropWhile pyIsSpace cs).dropLast.any
                (fun x => x == '\n')) = false then
            some (List.dropWhile pyIsSpace cs).dropLast
          else none
        else some (List.dropWhile pyIsSpace cs)
      else none

/-- `re.match(r"^\s*(solicito|gostaria de|quero|preciso)\s+(.*)$", t, re.I)`:
the four verb alternatives start with distinct letters, so at most one can
match. -/
def matchVerb (t : List Char) : Option (List Char) :=
  let t' := List.dropWhile pyIsSpace t
  (tryVerb "solicito".toList t').orElse fun _ =>
    (tryVerb "gostaria de".toList t').orElse fun _ =>
      (tryVerb "quero".toList t').orElse fun _ =>
        tryVerb "preciso".toList t'

/-- `_rb_summary_pt` from `summarization.py`: the deterministic rule-based
summary for short texts. -/
def _rb_summary_pt (text : List Char) : List Char :=
  let t1 := rstripP (fun c => c == '.') (trimList text)
  let t2 := match matchVerb t1 with
    | some core => "Solicita ".toList ++ core
    | none => t1
  let t3 := match t2 with
    | [] => []
    | c :: cs => upChar c :: cs
  if t3 ≠ [] ∧ t3.getLast? ≠ some '.' then t3 ++ ['.'] else t3

/-- `_fallback_summary` from `summarization.py`: first sentences of the text,
with a fixed marker. -/
def _fallback_summary (text : List Char) (max_sentences : Int) : List Char :=
  let t := trimList text
  if t = [] then []
  else
    let sents := splitSentences t
    let resumo := trimList (joinSep [' '] (pySlice max_sentences sents))
    let resumo' :=
      if max_sentences < (sents.length : Int) then resumo ++ " ...".toList
      else resumo
    "(Resumo automático simples) ".toList ++ resumo'

/-- The PT-BR instruction prompt built by `summarize_pt` (the f-string, after
its trailing `.strip()`). -/
def buildPrompt (text : List Char) : List Char :=
  ("Você é um analista de suporte. Resuma o texto do chamado em português do Brasil,\n" ++
   "em apenas uma frase curta e objetiva, na terceira pessoa.\n" ++
   "Não escreva cabeçalhos nem explique seus passos.\n" ++
   "\n" ++
   "Texto:\n" ++
   "\"\"\"").toList ++ text ++ ("\"\"\"\n" ++ "Saída:").toList

/-- `summarize_pt` from `summarization.py`, with the handle state passed
explicitly.  `max_sentences` is a Python `int`. -/
def summarize_pt (env : SummEnv) (st : Handle) (text : List Char)
    (max_sentences : Int) : List Char × Handle :=
  let t := trimList text
  if t = [] then ([], st)
  else if countWordRuns t ≤ SHORT_WORDS_THRESHOLD then (_rb_summary_pt t, st)
  else
    let rs := get_summarizer env st
    match rs.1 with
    | .fallback => (_fallback_summary t max_sentences, rs.2)
    | .ready =>
      match env.gen (buildPrompt t) with
      | some out => (_postprocess_summary (trimList out) max_sentences, rs.2)
      | none => (_fallback_summary t 3, rs.2)

-- Concrete environments used by witnesses and counterexamples.

/-- A zero-shot environment whose live pipeline always raises. -/
def testZSEnv : ZSEnv := ⟨true, true, fun _ _ => none⟩

/-- A summarizer environment whose generation call always raises. -/
def testSummEnv : SummEnv := ⟨true, true, fun _ => none⟩

-- ------------------------------------------------------------------
-- Claims
-- ------------------------------------------------------------------

/-- Claim C9: `heuristic_classify("o sistema não funciona e dá erro",
["Reclamação","Dúvida"])` returns label `"Reclamação"` with score exactly
`0.41` (the `0.01` base plus two `0.2` keyword hits, for `"erro"` and
`"não funciona"`) and `"Dúvida"` with score exactly `0.01`.  Scores are
modelled as exact rationals. -/
theorem claim_C9 :
    (fallback_classify "o sistema não funciona e dá erro".toList
      ["Reclamação".toList, "Dúvida".toList]).1 = "Reclamação".toList ∧
    scoreOf "Reclamação".toList
      (fallback_classify "o sistema não funciona e dá erro".toList
        ["Reclamação".toList, "Dúvida".toList]).2 = 41/100 ∧
    scoreOf "Dúvida".toList
      (fallback_classify "o sistema não funciona e dá erro".toList
        ["Reclamação".toList, "Dúvida".toList]).2 = 1/100 := by
  have ht : lowerList ("o sistema não funciona e dá erro".toList) =
      "o sistema não funciona e dá erro".toList := by decide
  have k1 : containsSub "erro".toList
      "o sistema não funciona e dá erro".toList = true := by decide
  have k2 : containsSub "não funciona".toList
      "o sistema não funciona e dá erro".toList = true := by decide
  have k3 : containsSub "demora".toList
      "o sistema não funciona e dá erro".toList = false := by decide
  have k4 : containsSub "reclama".toList
      "o sistema não funciona e dá erro".toList = false := by decide
  have k5 : containsSub "como".toList
      "o sistema não funciona e dá erro".toList = false := by decide
  have k6 : containsSub "onde".toList
      "o sistema não funciona e dá erro".toList = false := by decide
  have k7 : containsSub "posso".toList
      "o sistema não funciona e dá erro".toList = false := by decide
  have k8 : containsSub "duvida".toList
      "o sistema não funciona e dá erro".toList = false := by decide
  have k9 : containsSub "dúvida".toList
      "o sistema não funciona e dá erro".toList = false := by decide
  have hs : applyRules (lowerList "o sistema não funciona e dá erro".toList)
      (initScores ["Reclamação".toList, "Dúvida".toList]) =
      [("Reclamação".toList, 1/100 + 1/5 + 1/5), ("Dúvida".toList, 1/100)] := by
    rw [ht]
    simp +decide only [applyRules, rulesTable, List.foldl, applyRuleEntry,
      initScores, dedupKeys, dedupAux, addScore, List.any, List.map,
      k1, k2, k3, k4, k5, k6, k7, k8, k9, if_true, if_false]
  have hfc : fallback_classify "o sistema não funciona e dá erro".toList
      ["Reclamação".toList, "Dúvida".toList] =
      ("Reclamação".toList,
       [("Reclamação".toList, 1/100 + 1/5 + 1/5), ("Dúvida".toList, 1/100)]) := by
    simp only [fallback_classify, List.isEmpty_cons, Bool.false_eq_true,
      if_false, hs, ite_false]
    simp only [maxKey, List.foldl]
    rw [if_neg (by norm_num : ¬((1:ℚ)/100 + 1/5 + 1/5 < 1/100))]
  rw [hfc]
  refine ⟨rfl, ?_, ?_⟩
  · simp only [scoreOf, List.lookup, beq_self_eq_true, Option.getD]
    norm_num
  · have hne : (("Dúvida".toList : List Char) == "Reclamação".toList) = false := by
      decide
    simp only [scoreOf, List.lookup, hne, beq_self_eq_true, Option.getD]

/-- Claim C2 (counterexample): `_fallback_classify` with an empty label list
does not return the empty label / empty scores the claim demands:
`labels or DEFAULT_CATEGORIES` replaces the (falsy) empty list with the five
built-in categories, so the scores dict has the five default keys and the
best label is `"Feedback"` (first key at the tied maximum). -/
theorem claim_C2_counterexample :
    (fallback_classify "xyz".toList []).2.map Prod.fst = DEFAULT_CATEGORIES ∧
    (fallback_classify "xyz".toList []).1 = "Feedback".toList := by
  have hs : applyRules (lowerList "xyz".toList)
      (initScores DEFAULT_CATEGORIES) = initScores DEFAULT_CATEGORIES := by
    simp +decide only [applyRules, rulesTable, List.foldl, applyRuleEntry,
      initScores, dedupKeys, dedupAux, addScore, List.any, List.map,
      if_true, if_false]
  constructor
  · simp only [fallback_classify, List.isEmpty_nil, if_true, hs]
    decide
  · simp only [fallback_classify, List.isEmpty_nil, if_true, hs]
    simp only [initScores, dedupKeys, dedupAux, DEFAULT_CATEGORIES, List.map,
      List.isEmpty_cons, Bool.false_eq_true, if_false, maxKey, List.foldl]
    simp only [lt_self_iff_false, if_false]

/-- Claim C2 (amended): `_fallback_classify(text, [])` behaves exactly like
`_fallback_classify(text, DEFAULT_CATEGORIES)` — the empty list is falsy and
is replaced by the built-in categories; the empty-label/empty-scores result
is never produced. -/
theorem claim_C2_amended (text : List Char) :
    fallback_classify text [] = fallback_classify text DEFAULT_CATEGORIES := rfl

/-- Claim C1 (counterexample): `classify_zero_shot_pt(text, [])` on a
non-empty text does not return the empty `{label: "", scores: {}}` result:
the empty list is falsy, so `labels or DEFAULT_CATEGORIES` substitutes the
five built-in categories and the call proceeds (here through the permanent
fallback handle), returning label `"Reclamação"` for the text `"erro"` and a
five-entry scores dict. -/
theorem claim_C1_counterexample :
    (classify_zero_shot_pt testZSEnv (some .fallback) "erro".toList []).1.1 =
      "Reclamação".toList ∧
    (classify_zero_shot_pt testZSEnv (some .fallback) "erro".toList
      []).1.2.map Prod.fst = DEFAULT_CATEGORIES := by
  have hcl : classify_zero_shot_pt testZSEnv (some .fallback) "erro".toList []
      = (fallback_classify "erro".toList DEFAULT_CATEGORIES,
         some .fallback) := by rfl
  have hs : applyRules (lowerList "erro".toList)
      (initScores DEFAULT_CATEGORIES) =
      [("Feedback".toList, 1/100), ("Reclamação".toList, 1/100 + 1/5),
       ("Suporte técnico".toList, 1/100), ("Dúvida".toList, 1/100),
       ("Solicitação de serviço".toList, 1/100)] := by
    simp +decide only [applyRules, rulesTable, List.foldl, applyRuleEntry,
      initScores, dedupKeys, dedupAux, addScore, List.any, List.map,
      if_true, if_false]
  have hie : DEFAULT_CATEGORIES.isEmpty = false := by decide
  have hfc : fallback_classify "erro".toList DEFAULT_CATEGORIES =
      ("Reclamação".toList,
       [("Feedback".toList, 1/100), ("Reclamação".toList, 1/100 + 1/5),
        ("Suporte técnico".toList, 1/100), ("Dúvida".toList, 1/100),
        ("Solicitação de serviço".toList, 1/100)]) := by
    simp only [fallback_classify, hie, Bool.false_eq_true, if_false, hs,
      List.isEmpty_cons, maxKey, List.foldl]
    rw [if_pos (by norm_num : (1:ℚ)/100 < 1/100 + 1/5)]
    rw [if_neg (by norm_num : ¬((1:ℚ)/100 + 1/5 < 1/100))]
    rw [if_neg (by norm_num : ¬((1:ℚ)/100 + 1/5 < 1/100))]
    rw [if_neg (by norm_num : ¬((1:ℚ)/100 + 1/5 < 1/100))]
  rw [hcl, hfc]
  exact ⟨rfl, by decide⟩

/-- Claim C1 (amended): calling the classification engine with an explicitly
empty label list is identical to calling it with the built-in default
categories (`[]` is falsy in `labels or DEFAULT_CATEGORIES`); the empty
`{label: "", scores: {}}` result is produced only when the trimmed text is
empty or the supplied labels filter to the empty list. -/
theorem claim_C1_amended (env : ZSEnv) (st : Handle) (text : List Char) :
    classify_zero_shot_pt env st text [] =
      classify_zero_shot_pt env st text DEFAULT_CATEGORIES := rfl

/-- Claim C6 (counterexample): a whitespace-only label is *not* removed by
the label filter (`if lbl` tests Python truthiness, not trimmed content), so
classify called with the single label `" "` on a non-empty text does not
return `{label: "", scores: {}}`: through the fallback it classifies against
the label `" "` itself and returns it as the best label. -/
theorem claim_C6_counterexample :
    (classify_zero_shot_pt testZSEnv (some .fallback) "abc".toList
      [" ".toList]).1.1 = " ".toList ∧
    (classify_zero_shot_pt testZSEnv (some .fallback) "abc".toList
      [" ".toList]).1.1 ≠ [] := by
  constructor
  · decide
  · decide

/-- Claim C6 (amended): the label filter `[lbl for lbl in ... if lbl]`
removes exactly the *empty-string* labels (Python truthiness), not
whitespace-only ones: dropping an empty-string entry from a non-empty label
list does not change the result, while a list holding only the whitespace
label `" "` is classified as-is (no empty-result short circuit). -/
theorem claim_C6_amended (env : ZSEnv) (st : Handle) (text : List Char)
    (L : List (List Char)) (hL : L ≠ []) (hT : trimList text ≠ []) :
    classify_zero_shot_pt env st text ([] :: L) =
      classify_zero_shot_pt env st text L ∧
    classify_zero_shot_pt env (some .fallback) text [" ".toList] =
      (fallback_classify (trimList text) [" ".toList], some .fallback) := by
  constructor
  · obtain ⟨x, xs, rfl⟩ : ∃ x xs, L = x :: xs := by
      cases L with
      | nil => exact absurd rfl hL
      | cons a as => exact ⟨a, as, rfl⟩
    have hfl : filteredLabels ([] :: x :: xs) = filteredLabels (x :: xs) := by
      simp [filteredLabels, List.filter]
    simp only [classify_zero_shot_pt, hfl]
  · have hfl : filteredLabels [" ".toList] = [" ".toList] := by decide
    simp only [classify_zero_shot_pt, hfl]
    rw [if_neg (by simp [hT])]
    rfl

/-- Claim C6 (witness). -/
theorem claim_C6_witness :
    (["x".toList] ≠ ([] : List (List Char)) ∧ trimList "abc".toList ≠ []) ∧
    (classify_zero_shot_pt testZSEnv (some .ready) "abc".toList
        ([] :: ["x".toList]) =
      classify_zero_shot_pt testZSEnv (some .ready) "abc".toList ["x".toList] ∧
     classify_zero_shot_pt testZSEnv (some .fallback) "abc".toList
        [" ".toList] =
      (fallback_classify (trimList "abc".toList) [" ".toList],
       some .fallback)) :=
  ⟨⟨by decide, by decide⟩,
   claim_C6_amended testZSEnv (some .ready) "abc".toList ["x".toList]
     (by decide) (by decide)⟩

/-- Claim C3: for a text that is non-empty after trimming and has at most 6
word-character runs, `summarize_pt` returns exactly the rule-based summary of
the trimmed text, leaves the handle untouched (no backend is resolved or
invoked), and the visible result is a pure function of the text alone —
independent of the environment, the handle state and `max_sentences`. -/
theorem claim_C3 (env env' : SummEnv) (st st' : Handle) (text : List Char)
    (m m' : Int) (hT : trimList text ≠ [])
    (hW : countWordRuns (trimList text) ≤ SHORT_WORDS_THRESHOLD) :
    summarize_pt env st text m = (_rb_summary_pt (trimList text), st) ∧
    (summarize_pt env st text m).1 = (summarize_pt env' st' text m').1 := by
  have h : ∀ (e : SummEnv) (s : Handle) (k : Int),
      summarize_pt e s text k = (_rb_summary_pt (trimList text), s) := by
    intro e s k
    simp only [summarize_pt]
    rw [if_neg hT, if_pos hW]
  exact ⟨h env st m, by rw [h env st m, h env' st' m']⟩

/-- Claim C3 (witness). -/
theorem claim_C3_witness :
    (trimList "Solicito acesso ao sistema".toList ≠ [] ∧
     countWordRuns (trimList "Solicito acesso ao sistema".toList) ≤
       SHORT_WORDS_THRESHOLD) ∧
    (summarize_pt testSummEnv (some .ready) "Solicito acesso ao sistema".toList
        3 =
      (_rb_summary_pt (trimList "Solicito acesso ao sistema".toList),
       some .ready) ∧
     (summarize_pt testSummEnv (some .ready)
        "Solicito acesso ao sistema".toList 3).1 =
      (summarize_pt ⟨false, false, fun _ => none⟩ none
        "Solicito acesso ao sistema".toList 1).1) :=
  ⟨⟨by decide, by decide⟩,
   claim_C3 testSummEnv ⟨false, false, fun _ => none⟩ (some .ready) none
     "Solicito acesso ao sistema".toList 3 1 (by decide) (by decide)⟩

/-- Claim C4: the per-engine handle is a one-way state machine.  A resolved
handle (`ready` or `fallback`) is returned unchanged by `get_zero_shot` /
`get_summarizer` for *every* environment — initialization is never
re-attempted — and an engine whose handle is the permanent fallback routes
every call (non-empty trimmed text, non-empty filtered labels, long enough
text for the summarizer) through the fallback classifier / summarizer,
leaving the handle in the fallback state. -/
theorem claim_C4 (env : ZSEnv) (senv : SummEnv) (r : Resolved)
    (text : List Char) (labels : List (List Char)) (m : Int)
    (hT : trimList text ≠ []) (hL : filteredLabels labels ≠ [])
    (hW : ¬ countWordRuns (trimList text) ≤ SHORT_WORDS_THRESHOLD) :
    get_zero_shot env (some r) = (r, some r) ∧
    get_summarizer senv (some r) = (r, some r) ∧
    classify_zero_shot_pt env (some .fallback) text labels =
      (fallback_classify (trimList text) (filteredLabels labels),
       some .fallback) ∧
    summarize_pt senv (some .fallback) text m =
      (_fallback_summary (trimList text) m, some .fallback) := by
  refine ⟨rfl, rfl, ?_, ?_⟩
  · simp only [classify_zero_shot_pt]
    rw [if_neg (by simp [hT, hL])]
    rfl
  · simp only [summarize_pt]
    rw [if_neg hT, if_neg hW]
    rfl

/-- Claim C4 (witness). -/
theorem claim_C4_witness :
    (trimList "erro no provisionamento da conta nova de hoje".toList ≠ [] ∧
     filteredLabels DEFAULT_CATEGORIES ≠ [] ∧
     ¬ countWordRuns
        (trimList "erro no provisionamento da conta nova de hoje".toList) ≤
        SHORT_WORDS_THRESHOLD) ∧
    (get_zero_shot testZSEnv (some .ready) = (.ready, some .ready) ∧
     get_summarizer testSummEnv (some .ready) = (.ready, some .ready) ∧
     classify_zero_shot_pt testZSEnv (some .fallback)
        "erro no provisionamento da conta nova de hoje".toList
        DEFAULT_CATEGORIES =
      (fallback_classify
        (trimList "erro no provisionamento da conta nova de hoje".toList)
        (filteredLabels DEFAULT_CATEGORIES), some .fallback) ∧
     summarize_pt testSummEnv (some .fallback)
        "erro no provisionamento da conta nova de hoje".toList 2 =
      (_fallback_summary
        (trimList "erro no provisionamento da conta nova de hoje".toList) 2,
       some .fallback)) :=
  ⟨⟨by decide, by decide, by decide⟩,
   claim_C4 testZSEnv testSummEnv .ready
     "erro no provisionamento da conta nova de hoje".toList DEFAULT_CATEGORIES
     2 (by decide) (by decide) (by decide)⟩

/-- Claim C10: when a *loaded* summarization backend raises during the call,
the degraded result is the fallback summary with `max_sentences` fixed at 3
(`_fallback_summary(text, max_sentences=3)`), ignoring the caller's
`max_sentences` — unlike the fallback-permanent path, which passes the
caller's `max_sentences` through. -/
theorem claim_C10 (env : SummEnv) (text : List Char) (m : Int)
    (hT : trimList text ≠ [])
    (hW : ¬ countWordRuns (trimList text) ≤ SHORT_WORDS_THRESHOLD)
    (hfail : env.gen (buildPrompt (trimList text)) = none) :
    summarize_pt env (some .ready) text m =
      (_fallback_summary (trimList text) 3, some .ready) ∧
    summarize_pt env (some .fallback) text m =
      (_fallback_summary (trimList text) m, some .fallback) := by
  constructor
  · simp only [summarize_pt]
    rw [if_neg hT, if_neg hW]
    simp only [get_summarizer, hfail]
  · simp only [summarize_pt]
    rw [if_neg hT, if_neg hW]
    rfl

/-- Claim C10 (witness): with four sentences and `max_sentences = 1`, the
invocation-failure path returns the three-sentence fallback summary. -/
theorem claim_C10_witness :
    (trimList "Frase um aqui agora. Frase dois. Frase três. Frase quatro.".toList
        ≠ [] ∧
     ¬ countWordRuns (trimList
        "Frase um aqui agora. Frase dois. Frase três. Frase quatro.".toList) ≤
        SHORT_WORDS_THRESHOLD ∧
     testSummEnv.gen (buildPrompt (trimList
        "Frase um aqui agora. Frase dois. Frase três. Frase quatro.".toList)) =
        none) ∧
    (summarize_pt testSummEnv (some .ready)
        "Frase um aqui agora. Frase dois. Frase três. Frase quatro.".toList 1 =
      (_fallback_summary (trimList
        "Frase um aqui agora. Frase dois. Frase três. Frase quatro.".toList) 3,
       some .ready) ∧
     summarize_pt testSummEnv (some .fallback)
        "Frase um aqui agora. Frase dois. Frase três. Frase quatro.".toList 1 =
      (_fallback_summary (trimList
        "Frase um aqui agora. Frase dois. Frase três. Frase quatro.".toList) 1,
       some .fallback)) :=
  ⟨⟨by decide, by decide, rfl⟩,
   claim_C10 testSummEnv
     "Frase um aqui agora. Frase dois. Frase três. Frase quatro.".toList 1
     (by decide) (by decide) rfl⟩


lemma lookup_addScore_self (L : List Char) (amt : ℚ)
    (sc : List (List Char × ℚ)) :
    List.lookup L (addScore sc L amt) = (List.lookup L sc).map (· + amt) := by
  induction sc with
  | nil => rfl
  | cons p rest ih =>
    obtain ⟨k, v⟩ := p
    by_cases hk : k = L
    · subst hk
      have h1 : addScore ((k, v) :: rest) k amt =
          (k, v + amt) :: addScore rest k amt := by
        simp [addScore]
      rw [h1]
      simp [List.lookup]
    · have h1 : addScore ((k, v) :: rest) L amt =
          (k, v) :: addScore rest L amt := by
        simp [addScore, hk]
      rw [h1]
      have hbeq : (L == k) = false :=
        beq_eq_false_iff_ne.mpr fun h => hk h.symm
      simp [List.lookup, hbeq]
      exact ih

lemma lookup_addScore_other {L M : List Char} (h : L ≠ M) (amt : ℚ)
    (sc : List (List Char × ℚ)) :
    List.lookup L (addScore sc M amt) = List.lookup L sc := by
  induction sc with
  | nil => rfl
  | cons p rest ih =>
    obtain ⟨k, v⟩ := p
    by_cases hk : k = M
    · subst hk
      have h1 : addScore ((k, v) :: rest) k amt =
          (k, v + amt) :: addScore rest k amt := by
        simp [addScore]
      rw [h1]
      have hbeq : (L == k) = false := beq_eq_false_iff_ne.mpr h
      simp [List.lookup, hbeq]
      exact ih
    · have h1 : addScore ((k, v) :: rest) M amt =
          (k, v) :: addScore rest M amt := by
        simp [addScore, hk]
      rw [h1]
      by_cases hLk : L = k
      · subst hLk
        simp [List.lookup]
      · have hbeq : (L == k) = false := beq_eq_false_iff_ne.mpr hLk
        simp [List.lookup, hbeq]
        exact ih

/-- The inner `for kw in kws` fold adds `0.2` once per keyword found in the
text. -/
lemma lookup_kwfold (textL L : List Char) (kws : List (List Char))
    (sc : List (List Char × ℚ)) :
    List.lookup L (kws.foldl
        (fun s kw => if containsSub kw textL then addScore s L (1/5) else s)
        sc) =
      (List.lookup L sc).map
        (· + (1/5) * (kws.countP (fun kw => containsSub kw textL) : ℚ)) := by
  induction kws generalizing sc with
  | nil =>
    cases h : List.lookup L sc <;> simp [h]
  | cons kw rest ih =>
    rw [List.foldl_cons]
    by_cases hc : containsSub kw textL = true
    · rw [if_pos hc, ih, lookup_addScore_self]
      cases h : List.lookup L sc
      · simp
      · simp only [Option.map_some', Option.map_some, List.countP_cons, hc,
          if_true, Option.some.injEq]
        push_cast
        ring
    · rw [if_neg hc, ih]
      have hcf : containsSub kw textL = false := by
        simpa using hc
      simp [List.countP_cons, hcf]

lemma lookup_kwfold_other {L M : List Char} (h : L ≠ M) (textL : List Char)
    (kws : List (List Char)) (sc : List (List Char × ℚ)) :
    List.lookup L (kws.foldl
        (fun s kw => if containsSub kw textL then addScore s M (1/5) else s)
        sc) = List.lookup L sc := by
  induction kws generalizing sc with
  | nil => rfl
  | cons kw rest ih =>
    rw [List.foldl_cons]
    by_cases hc : containsSub kw textL = true
    · rw [if_pos hc, ih, lookup_addScore_other h]
    · rw [if_neg hc, ih]

lemma lookup_eq_none_of_not_key {L : List Char} {sc : List (List Char × ℚ)}
    (h : ∀ p ∈ sc, p.1 ≠ L) : List.lookup L sc = none := by
  induction sc with
  | nil => rfl
  | cons p rest ih =>
    obtain ⟨k, v⟩ := p
    have hk : k ≠ L := h (k, v) (List.mem_cons_self _ _)
    have hbeq : (L == k) = false := beq_eq_false_iff_ne.mpr fun hE => hk hE.symm
    simp only [List.lookup, hbeq]
    exact ih fun q hq => h q (List.mem_cons_of_mem _ hq)

lemma lookup_applyRuleEntry_self (textL L : List Char)
    (kws : List (List Char)) (sc : List (List Char × ℚ)) :
    List.lookup L (applyRuleEntry textL sc (L, kws)) =
      (List.lookup L sc).map
        (· + (1/5) * (kws.countP (fun kw => containsSub kw textL) : ℚ)) := by
  unfold applyRuleEntry
  by_cases hany : sc.any (fun p => p.1 = (L, kws).1) = true
  · rw [if_pos hany]
    exact lookup_kwfold textL L kws sc
  · rw [if_neg hany]
    have hnone : List.lookup L sc = none := by
      apply lookup_eq_none_of_not_key
      intro p hp hEq
      exact hany (List.any_eq_true.mpr ⟨p, hp, by simp [hEq]⟩)
    rw [hnone]
    rfl

lemma lookup_applyRuleEntry_other {L : List Char}
    {e : List Char × List (List Char)} (h : L ≠ e.1) (textL : List Char)
    (sc : List (List Char × ℚ)) :
    List.lookup L (applyRuleEntry textL sc e) = List.lookup L sc := by
  unfold applyRuleEntry
  split
  · exact lookup_kwfold_other h textL e.2 sc
  · rfl

lemma lookup_foldEntries_other {L : List Char}
    {entries : List (List Char × List (List Char))}
    (h : ∀ e ∈ entries, L ≠ e.1) (textL : List Char)
    (sc : List (List Char × ℚ)) :
    List.lookup L (entries.foldl (applyRuleEntry textL) sc) =
      List.lookup L sc := by
  induction entries generalizing sc with
  | nil => rfl
  | cons e rest ih =>
    rw [List.foldl_cons,
      ih fun x hx => h x (List.mem_cons_of_mem _ hx),
      lookup_applyRuleEntry_other (h e (List.mem_cons_self _ _)) textL sc]

/-- Score of a label through the whole rules fold, when the rules list splits
around that label's unique entry. -/
lemma lookup_foldEntries_split {L : List Char} {kws : List (List Char)}
    {pre post : List (List Char × List (List Char))}
    (hpre : ∀ e ∈ pre, L ≠ e.1) (hpost : ∀ e ∈ post, L ≠ e.1)
    (textL : List Char) (sc : List (List Char × ℚ)) :
    List.lookup L ((pre ++ (L, kws) :: post).foldl (applyRuleEntry textL) sc) =
      (List.lookup L sc).map
        (· + (1/5) * (kws.countP (fun kw => containsSub kw textL) : ℚ)) := by
  rw [List.foldl_append, List.foldl_cons, lookup_foldEntries_other hpost,
    lookup_applyRuleEntry_self, lookup_foldEntries_other hpre]

lemma scoreOf_mono_of_split (labels : List (List Char)) (L : List Char)
    (kws : List (List Char))
    (pre post : List (List Char × List (List Char)))
    (hsplit : rulesTable = pre ++ (L, kws) :: post)
    (hpre : ∀ e ∈ pre, L ≠ e.1) (hpost : ∀ e ∈ post, L ≠ e.1)
    (t1 t2 : List Char)
    (hmono : ∀ kw ∈ kws, containsSub kw (lowerList t1) = true →
      containsSub kw (lowerList t2) = true) :
    scoreOf L (fallback_classify t1 labels).2 ≤
      scoreOf L (fallback_classify t2 labels).2 := by
  have hA : ∀ t : List Char, scoreOf L (fallback_classify t labels).2 =
      ((List.lookup L (initScores
          (if labels.isEmpty then DEFAULT_CATEGORIES else labels))).map
        (· + (1/5) *
          (kws.countP (fun kw => containsSub kw (lowerList t)) : ℚ))).getD 0 := by
    intro t
    show (List.lookup L
        (applyRules (lowerList t) (initScores
          (if labels.isEmpty then DEFAULT_CATEGORIES else labels)))).getD 0 = _
    unfold applyRules
    rw [hsplit, lookup_foldEntries_split hpre hpost]
  rw [hA t1, hA t2]
  cases hinit : List.lookup L (initScores
      (if labels.isEmpty then DEFAULT_CATEGORIES else labels)) with
  | none => simp
  | some v =>
    simp only [Option.map_some', Option.map_some, Option.getD_some]
    have hcnt : kws.countP (fun kw => containsSub kw (lowerList t1)) ≤
        kws.countP (fun kw => containsSub kw (lowerList t2)) :=
      List.countP_mono_left hmono
    have hq : ((kws.countP (fun kw => containsSub kw (lowerList t1)) : ℚ)) ≤
        (kws.countP (fun kw => containsSub kw (lowerList t2)) : ℚ) := by
      exact_mod_cast hcnt
    have := mul_le_mul_of_nonneg_left hq (by norm_num : (0:ℚ) ≤ 1/5)
    linarith

/-- Claim C8: the fallback classifier is monotonic in keyword matches.  For
a fixed requested label list and a label of the keyword table, if every
keyword of that label found in the first lowercased text is also found in
the second, then the label's score on the second text is at least its score
on the first (each matched keyword adds `0.2` to the `0.01` base, once per
keyword). -/
theorem claim_C8 (labels : List (List Char)) (L : List Char)
    (kws : List (List Char)) (t1 t2 : List Char)
    (hmem : (L, kws) ∈ rulesTable)
    (hmono : ∀ kw ∈ kws, containsSub kw (lowerList t1) = true →
      containsSub kw (lowerList t2) = true) :
    scoreOf L (fallback_classify t1 labels).2 ≤
      scoreOf L (fallback_classify t2 labels).2 := by
  simp only [rulesTable, List.mem_cons, List.not_mem_nil, or_false] at hmem
  rcases hmem with h | h | h | h | h <;>
    (injection h with hL hk; subst hL; subst hk)
  · exact scoreOf_mono_of_split labels _ _
      ([] : List (List Char × List (List Char)))
      [("Suporte técnico".toList,
        ["bug".toList, "instalar".toList, "acesso".toList, "senha".toList,
         "configurar".toList, "técnico".toList]),
       ("Dúvida".toList,
        ["como".toList, "onde".toList, "posso".toList, "duvida".toList,
         "dúvida".toList]),
       ("Solicitação de serviço".toList,
        ["pedido".toList, "solicito".toList, "provisionar".toList,
         "ativar".toList, "criar".toList]),
       ("Feedback".toList,
        ["sugestão".toList, "gostei".toList, "melhorar".toList,
         "ideia".toList])]
      (by rfl) (by decide) (by decide) t1 t2 hmono
  · exact scoreOf_mono_of_split labels _ _
      [("Reclamação".toList,
        ["erro".toList, "não funciona".toList, "demora".toList,
         "reclama".toList])]
      [("Dúvida".toList,
        ["como".toList, "onde".toList, "posso".toList, "duvida".toList,
         "dúvida".toList]),
       ("Solicitação de serviço".toList,
        ["pedido".toList, "solicito".toList, "provisionar".toList,
         "ativar".toList, "criar".toList]),
       ("Feedback".toList,
        ["sugestão".toList, "gostei".toList, "melhorar".toList,
         "ideia".toList])]
      (by rfl) (by decide) (by decide) t1 t2 hmono
  · exact scoreOf_mono_of_split labels _ _
      [("Reclamação".toList,
        ["erro".toList, "não funciona".toList, "demora".toList,
         "reclama".toList]),
       ("Suporte técnico".toList,
        ["bug".toList, "instalar".toList, "acesso".toList, "senha".toList,
         "configurar".toList, "técnico".toList])]
      [("Solicitação de serviço".toList,
        ["pedido".toList, "solicito".toList, "provisionar".toList,
         "ativar".toList, "criar".toList]),
       ("Feedback".toList,
        ["sugestão".toList, "gostei".toList, "melhorar".toList,
         "ideia".toList])]
      (by rfl) (by decide) (by decide) t1 t2 hmono
  · exact scoreOf_mono_of_split labels _ _
      [("Reclamação".toList,
        ["erro".toList, "não funciona".toList, "demora".toList,
         "reclama".toList]),
       ("Suporte técnico".toList,
        ["bug".toList, "instalar".toList, "acesso".toList, "senha".toList,
         "configurar".toList, "técnico".toList]),
       ("Dúvida".toList,
        ["como".toList, "onde".toList, "posso".toList, "duvida".toList,
         "dúvida".toList])]
      [("Feedback".toList,
        ["sugestão".toList, "gostei".toList, "melhorar".toList,
         "ideia".toList])]
      (by rfl) (by decide) (by decide) t1 t2 hmono
  · exact scoreOf_mono_of_split labels _ _
      [("Reclamação".toList,
        ["erro".toList, "não funciona".toList, "demora".toList,
         "reclama".toList]),
       ("Suporte técnico".toList,
        ["bug".toList, "instalar".toList, "acesso".toList, "senha".toList,
         "configurar".toList, "técnico".toList]),
       ("Dúvida".toList,
        ["como".toList, "onde".toList, "posso".toList, "duvida".toList,
         "dúvida".toList]),
       ("Solicitação de serviço".toList,
        ["pedido".toList, "solicito".toList, "provisionar".toList,
         "ativar".toList, "criar".toList])]
      ([] : List (List Char × List (List Char)))
      (by rfl) (by decide) (by decide) t1 t2 hmono

/-- Claim C8 (witness). -/
theorem claim_C8_witness :
    (("Reclamação".toList,
      ["erro".toList, "não funciona".toList, "demora".toList,
       "reclama".toList]) ∈ rulesTable ∧
     (∀ kw ∈ ["erro".toList, "não funciona".toList, "demora".toList,
         "reclama".toList],
       containsSub kw (lowerList "erro".toList) = true →
       containsSub kw (lowerList "erro e demora".toList) = true)) ∧
    scoreOf "Reclamação".toList
      (fallback_classify "erro".toList DEFAULT_CATEGORIES).2 ≤
    scoreOf "Reclamação".toList
      (fallback_classify "erro e demora".toList DEFAULT_CATEGORIES).2 :=
  ⟨⟨by decide, by decide⟩,
   claim_C8 DEFAULT_CATEGORIES "Reclamação".toList
     ["erro".toList, "não funciona".toList, "demora".toList,
      "reclama".toList] "erro".toList "erro e demora".toList
     (by decide) (by decide)⟩

-- Helper lemmas for claim C5 (rule-based summary trailing periods).

lemma head?_dropWhile {p : Char → Bool} {l : List Char} {c : Char}
    (h : (List.dropWhile p l).head? = some c) : p c = false := by
  induction l with
  | nil => simp at h
  | cons a as ih =>
    rw [List.dropWhile_cons] at h
    by_cases hpa : p a = true
    · rw [if_pos hpa] at h
      exact ih h
    · rw [if_neg hpa] at h
      simp at h
      subst h
      simpa using hpa

lemma getLast?_rstripP {p : Char → Bool} {l : List Char} {c : Char}
    (h : (rstripP p l).getLast? = some c) : p c = false := by
  unfold rstripP at h
  rw [List.getLast?_reverse] at h
  exact head?_dropWhile h

lemma rstripP_eq_self {p : Char → Bool} {l : List Char} {c : Char}
    (hlast : l.getLast? = some c) (hc : p c = false) : rstripP p l = l := by
  unfold rstripP
  rw [← List.head?_reverse] at hlast
  cases hrev : l.reverse with
  | nil => rw [hrev] at hlast; simp at hlast
  | cons x xs =>
    rw [hrev] at hlast
    simp at hlast
    rw [List.dropWhile_cons]
    rw [if_neg (by simp [hlast, hc])]
    rw [← hrev]
    rw [List.reverse_reverse]

lemma dropWhile_append_all {p : Char → Bool} {a : List Char} (b : List Char)
    (h : ∀ c ∈ a, p c = true) :
    List.dropWhile p (a ++ b) = List.dropWhile p b := by
  induction a with
  | nil => rfl
  | cons x xs ih =>
    rw [List.cons_append, List.dropWhile_cons,
      if_pos (h x (List.mem_cons_self _ _)),
      ih fun c hc => h c (List.mem_cons_of_mem _ hc)]

lemma rstripP_append_all (p : Char → Bool) (a d : List Char)
    (h : ∀ c ∈ d, p c = true) : rstripP p (a ++ d) = rstripP p a := by
  unfold rstripP
  rw [List.reverse_append, dropWhile_append_all _ (fun c hc => h c (by
    simpa using hc))]

/-- `strip().rstrip(".")` ignores how many trailing periods the input has:
appending any non-empty block of periods yields the same core text as
appending one. -/
lemma rb_core_append_dots (text D : List Char) (hne : D ≠ [])
    (hdots : ∀ c ∈ D, (c == '.') = true) :
    rstripP (fun c => c == '.') (trimList (text ++ D)) =
      rstripP (fun c => c == '.') (List.dropWhile pyIsSpace text) := by
  obtain ⟨D', dlast, rfl⟩ : ∃ D' dlast, D = D' ++ [dlast] := by
    rcases List.eq_nil_or_concat D with h | ⟨D', dl, h⟩
    · exact absurd h hne
    · exact ⟨D', dl, by simpa [List.concat_eq_append] using h⟩
  have hdlast : (dlast == '.') = true :=
    hdots dlast (by simp)
  have hdlasteq : dlast = '.' := eq_of_beq hdlast
  have hDdot : ∀ c ∈ D' ++ [dlast], (c == '.') = true := hdots
  have hDnospace : ∀ c ∈ D' ++ [dlast], pyIsSpace c = false := by
    intro c hc
    have := eq_of_beq (hdots c hc)
    subst this
    decide
  -- step 1: dropWhile of the appended text
  rw [trimList, List.dropWhile_append]
  by_cases hdw : (List.dropWhile pyIsSpace text).isEmpty = true
  · rw [if_pos hdw]
    have h1 : List.dropWhile pyIsSpace (D' ++ [dlast]) = D' ++ [dlast] := by
      cases hD : D' ++ [dlast] with
      | nil => simp at hD
      | cons d ds =>
        rw [List.dropWhile_cons, if_neg]
        simp only [hD] at hDnospace ⊢
        simp [hDnospace d (by simp)]
    rw [h1]
    have h2 : rstripP pyIsSpace (D' ++ [dlast]) = D' ++ [dlast] := by
      exact rstripP_eq_self (List.getLast?_concat _)
        (by simpa using hDnospace dlast (by simp))
    rw [h2]
    have h3 : rstripP (fun c => c == '.') (D' ++ [dlast]) =
        rstripP (fun c => c == '.') ([] : List Char) := by
      have := rstripP_append_all (fun c => c == '.')
        ([] : List Char) (D' ++ [dlast]) hDdot
      simpa using this
    rw [h3]
    have h4 : List.dropWhile pyIsSpace text = [] := by
      simpa using hdw
    rw [h4]
  · rw [if_neg hdw]
    have h2 : rstripP pyIsSpace (List.dropWhile pyIsSpace text ++
        (D' ++ [dlast])) = List.dropWhile pyIsSpace text ++ (D' ++ [dlast]) := by
      refine rstripP_eq_self ?_ (by simpa using hDnospace dlast (by simp))
      rw [List.getLast?_append_of_ne_nil _ (by simp), List.getLast?_concat]
    rw [h2]
    have h3 := rstripP_append_all (fun c => c == '.')
      (List.dropWhile pyIsSpace text) (D' ++ [dlast]) hDdot
    rw [h3]

lemma upChar_eq_dot {c : Char} (h : upChar c = '.') : c = '.' := by
  unfold upChar at h
  split at h <;> simp_all

lemma dropCI_decomp {v t r : List Char} (h : dropCI v t = some r) :
    ∃ con, t = con ++ r := by
  induction v generalizing t with
  | nil =>
    cases t with
    | nil => exact ⟨[], by simpa [dropCI] using h.symm⟩
    | cons c cs =>
      simp only [dropCI] at h
      injection h with h
      exact ⟨[], by simp [h]⟩
  | cons p ps ih =>
    cases t with
    | nil => simp [dropCI] at h
    | cons c cs =>
      simp only [dropCI] at h
      split at h
      · obtain ⟨con, hcon⟩ := ih h
        exact ⟨c :: con, by rw [List.cons_append, ← hcon]⟩
      · simp at h

lemma tryVerb_decomp {v t core : List Char} (h : tryVerb v t = some core) :
    ∃ a tail, t = a ++ core ++ tail ∧ (tail = [] ∨ tail = ['\n']) := by
  unfold tryVerb at h
  split at h
  · simp at h
  · rename_i rest hdrop
    split at h
    · simp at h
    · rename_i c cs
      split at h
      · split at h
        · split at h
          · rename_i hany hcond
            injection h with h
            obtain ⟨hlast, hnlfree⟩ := hcond
            obtain ⟨r', d, hcc⟩ : ∃ r' d,
                List.dropWhile pyIsSpace cs = r' ++ [d] := by
              rcases List.eq_nil_or_concat (List.dropWhile pyIsSpace cs) with
                hnil | ⟨r', d, hcc⟩
              · rw [hnil] at hlast
                simp at hlast
              · exact ⟨r', d, by simpa [List.concat_eq_append] using hcc⟩
            have hd : d = '\n' := by
              rw [hcc, List.getLast?_concat] at hlast
              exact (Option.some.injEq _ _).mp hlast.symm |>.symm
            have hcore : core = r' := by
              rw [← h, hcc, hd]
              exact List.dropLast_concat
            obtain ⟨con, hcon⟩ := dropCI_decomp hdrop
            refine ⟨con ++ (c :: List.takeWhile pyIsSpace cs), ['\n'],
              ?_, Or.inr rfl⟩
            rw [hcon, hcore]
            conv_lhs =>
              rw [show cs = List.takeWhile pyIsSpace cs ++
                  List.dropWhile pyIsSpace cs from
                (List.takeWhile_append_dropWhile pyIsSpace cs).symm]
            rw [hcc, hd]
            simp [List.append_assoc]
          · simp at h
        · injection h with h
          obtain ⟨con, hcon⟩ := dropCI_decomp hdrop
          refine ⟨con ++ (c :: List.takeWhile pyIsSpace cs), [], ?_, Or.inl rfl⟩
          rw [hcon]
          conv_lhs =>
            rw [show cs = List.takeWhile pyIsSpace cs ++
                List.dropWhile pyIsSpace cs from
              (List.takeWhile_append_dropWhile pyIsSpace cs).symm]
          rw [h]
          simp [List.append_assoc]
      · simp at h

lemma matchVerb_decomp {t core : List Char} (h : matchVerb t = some core) :
    ∃ a tail, t = a ++ core ++ tail ∧ (tail = [] ∨ tail = ['\n']) := by
  unfold matchVerb at h
  have hsplit : ∀ {x : Option (List Char)} {f : Unit → Option (List Char)},
      x.orElse f = some core → x = some core ∨ f () = some core := by
    intro x f hx
    cases x with
    | none => right; simpa [Option.orElse] using hx
    | some v => left; simpa [Option.orElse] using hx
  have hT : ∀ {v : List Char},
      tryVerb v (List.dropWhile pyIsSpace t) = some core →
      ∃ a tail, t = a ++ core ++ tail ∧ (tail = [] ∨ tail = ['\n']) := by
    intro v hv
    obtain ⟨a, tail, ha, htail⟩ := tryVerb_decomp hv
    refine ⟨List.takeWhile pyIsSpace t ++ a, tail, ?_, htail⟩
    conv_lhs =>
      rw [show t = List.takeWhile pyIsSpace t ++
          List.dropWhile pyIsSpace t from
        (List.takeWhile_append_dropWhile pyIsSpace t).symm]
    rw [ha]
    simp [List.append_assoc]
  rcases hsplit h with h1 | h1
  · exact hT h1
  rcases hsplit h1 with h2 | h2
  · exact hT h2
  rcases hsplit h2 with h3 | h3
  · exact hT h3
  · exact hT h3

lemma mem_of_mem_rstripP {p : Char → Bool} {l : List Char} {c : Char}
    (hc : c ∈ rstripP p l) : c ∈ l := by
  unfold rstripP at hc
  rw [List.mem_reverse] at hc
  exact List.mem_reverse.mp ((List.dropWhile_sublist p).mem hc)

lemma mem_of_mem_trimList {l : List Char} {c : Char}
    (hc : c ∈ trimList l) : c ∈ l := by
  unfold trimList at hc
  exact (List.dropWhile_sublist pyIsSpace).mem (mem_of_mem_rstripP hc)

lemma rb_eq_of_core_eq {a b : List Char}
    (h : rstripP (fun c => c == '.') (trimList a) =
      rstripP (fun c => c == '.') (trimList b)) :
    _rb_summary_pt a = _rb_summary_pt b := by
  simp only [_rb_summary_pt, h]

lemma rb_result_shape (text t1 : List Char)
    (h : rstripP (fun c => c == '.') (trimList text) = t1)
    (hlast : ∀ d, t1.getLast? = some d → (d == '.') = false)
    (hnl : ∀ c ∈ t1, c ≠ '\n') :
    _rb_summary_pt text = [] ∨
      ∃ r, _rb_summary_pt text = r ++ ['.'] ∧ r.getLast? ≠ some '.' := by
  have hbody : _rb_summary_pt text =
      (let t2 := match matchVerb t1 with
        | some core => "Solicita ".toList ++ core
        | none => t1
       let t3 := match t2 with
        | [] => []
        | c :: cs => upChar c :: cs
       if t3 ≠ [] ∧ t3.getLast? ≠ some '.' then t3 ++ ['.'] else t3) := by
    simp only [_rb_summary_pt, h]
  rw [hbody]
  clear hbody
  -- the rewritten text `t2`, with its last character when non-empty
  have hT2 : ∀ t2 : List Char,
      (t2 = [] ∨ ∃ e, t2.getLast? = some e ∧ (e == '.') = false) →
      (let t3 := match t2 with
        | [] => []
        | c :: cs => upChar c :: cs
       if t3 ≠ [] ∧ t3.getLast? ≠ some '.' then t3 ++ ['.'] else t3) = [] ∨
      ∃ r, (let t3 := match t2 with
        | [] => []
        | c :: cs => upChar c :: cs
       if t3 ≠ [] ∧ t3.getLast? ≠ some '.' then t3 ++ ['.'] else t3) =
        r ++ ['.'] ∧ r.getLast? ≠ some '.' := by
    intro t2 ht2
    rcases ht2 with rfl | ⟨e, he, hedot⟩
    · left
      rfl
    · cases t2 with
      | nil => simp at he
      | cons c2 cs2 =>
        right
        have h3 : (upChar c2 :: cs2).getLast? = some e ∨
            (cs2 = [] ∧ e = c2 ∧ (upChar c2 :: cs2).getLast? =
              some (upChar c2)) := by
          cases cs2 with
          | nil =>
            right
            simp at he
            exact ⟨rfl, he.symm, rfl⟩
          | cons x xs =>
            left
            rw [List.getLast?_cons_cons] at he ⊢
            exact he
        have hne : (upChar c2 :: cs2).getLast? ≠ some '.' := by
          rcases h3 with h3 | ⟨_, he2, h3⟩
          · rw [h3]
            intro hcon
            injection hcon with hcon
            rw [hcon] at hedot
            simp at hedot
          · rw [h3]
            intro hcon
            injection hcon with hcon
            have := upChar_eq_dot hcon
            rw [this] at he2
            rw [← he2] at hedot
            simp [this] at hedot
        refine ⟨upChar c2 :: cs2, ?_, hne⟩
        simp only []
        rw [if_pos ⟨by simp, hne⟩]
  cases hm : matchVerb t1 with
  | none =>
    apply hT2 t1
    cases ht1 : t1 with
    | nil => left; rfl
    | cons c cs =>
      right
      obtain ⟨l', d, hconc⟩ : ∃ l' d, t1 = l' ++ [d] := by
        rcases List.eq_nil_or_concat t1 with hh | ⟨l', d, hh⟩
        · rw [ht1] at hh; simp at hh
        · exact ⟨l', d, by simpa [List.concat_eq_append] using hh⟩
      refine ⟨d, ?_, ?_⟩
      · rw [← ht1, hconc, List.getLast?_concat]
      · exact hlast d (by rw [hconc, List.getLast?_concat])
  | some core =>
    apply hT2 ("Solicita ".toList ++ core)
    right
    rcases List.eq_nil_or_concat core with hnil | ⟨l', d, hcc⟩
    · subst hnil
      exact ⟨' ', by decide, by decide⟩
    · have hconc : core = l' ++ [d] := by
        simpa [List.concat_eq_append] using hcc
      obtain ⟨a, tail, ha, htail⟩ := matchVerb_decomp hm
      have htail0 : tail = [] := by
        rcases htail with rfl | rfl
        · rfl
        · exact absurd rfl (hnl '\n' (by rw [ha]; simp))
      rw [htail0] at ha
      simp only [List.append_nil] at ha
      refine ⟨d, ?_, ?_⟩
      · rw [List.getLast?_append_of_ne_nil _ (by rw [hconc]; simp),
          hconc, List.getLast?_concat]
      · apply hlast
        rw [ha, List.getLast?_append_of_ne_nil _ (by rw [hconc]; simp),
          hconc, List.getLast?_concat]

/-- Claim C5 (counterexample): `_rb_summary_pt` strips *all* trailing periods
(`rstrip(".")`), not exactly one: on `"abc..."`, stripping exactly one period
would give `"Abc.."`, but the code returns `"Abc."`. -/
theorem claim_C5_counterexample :
    _rb_summary_pt "abc...".toList = "Abc.".toList ∧
    _rb_summary_pt "abc...".toList ≠ "Abc..".toList := by
  constructor
  · decide
  · decide

/-- Claim C5 (amended): `_rb_summary_pt` trims the text and strips *all*
trailing periods (Python `rstrip(".")` removes every matching trailing
character), then applies the request-verb rewrite and capitalization and
appends exactly one final period if the result does not already end with
one.  Any non-empty block of trailing periods in the input yields the same
output as a single one, and for newline-free input the result is empty or
ends in exactly one period.  (An embedded newline can defeat the latter:
`$` matches before a trailing newline, so `group(2)` of the verb rewrite
may itself end in periods — `"solicito x..\n."` yields `"Solicita x.."`.) -/
theorem claim_C5_amended (text : List Char) :
    _rb_summary_pt (text ++ "...".toList) =
      _rb_summary_pt (text ++ ".".toList) ∧
    ((∀ c ∈ text, c ≠ '\n') →
      _rb_summary_pt text = [] ∨
        ∃ r, _rb_summary_pt text = r ++ ['.'] ∧ r.getLast? ≠ some '.') ∧
    _rb_summary_pt "solicito x..\n.".toList = "Solicita x..".toList := by
  refine ⟨?_, ?_, ?_⟩
  · apply rb_eq_of_core_eq
    rw [rb_core_append_dots text "...".toList (by decide) (by decide),
      rb_core_append_dots text ".".toList (by decide) (by decide)]
  · intro hnl
    apply rb_result_shape text _ rfl
      (fun d hd => @getLast?_rstripP (fun c => c == '.') (trimList text) d hd)
    intro c hc
    exact hnl c (mem_of_mem_trimList (mem_of_mem_rstripP hc))
  · decide

/-- Claim C5 (witness). -/
theorem claim_C5_witness :
    (∀ c ∈ "quero acesso rapido".toList, c ≠ '\n') ∧
    (_rb_summary_pt "quero acesso rapido".toList = [] ∨
      ∃ r, _rb_summary_pt "quero acesso rapido".toList = r ++ ['.'] ∧
        r.getLast? ≠ some '.') :=
  ⟨by decide, (claim_C5_amended "quero acesso rapido".toList).2.1 (by decide)⟩

lemma subResumoAux_true_cons (c : Char) (cs : List Char) :
    subResumoAux true (c :: cs) = c :: subResumoAux (isWordChar c) cs := by
  rw [subResumoAux]
  rfl

lemma subResumoAux_false_cons_none {c : Char} {cs : List Char}
    (hm : matchRC (c :: cs) = none) :
    subResumoAux false (c :: cs) = c :: subResumoAux (isWordChar c) cs := by
  rw [subResumoAux, if_neg (by simp)]
  split
  · rename_i r hr
    rw [hm] at hr
    exact absurd hr (by simp)
  · rfl

lemma subResumoAux_false_cons_some {c : Char} {cs rest : List Char}
    (hm : matchRC (c :: cs) = some rest) :
    subResumoAux false (c :: cs) = subResumoAux false rest := by
  rw [subResumoAux, if_neg (by simp)]
  split
  · rename_i r hr
    rw [hm] at hr
    injection hr with hr
    rw [hr]
  · rename_i hr
    rw [hm] at hr
    simp at hr

lemma lowChar_eq_colon {c : Char} (h : lowChar c = ':') : c = ':' := by
  unfold lowChar at h
  split at h <;> simp_all

lemma lowChar_keeps_alphanum {c : Char}
    (h : (lowChar c).isAlphanum = true) : c.isAlphanum = true := by
  unfold lowChar at h
  split at h <;> simp_all

lemma isWordChar_of_lowChar_letter {c d : Char} (hd : d.isAlphanum = true)
    (h : lowChar c = d) : isWordChar c = true := by
  have : (lowChar c).isAlphanum = true := by rw [h]; exact hd
  have := lowChar_keeps_alphanum this
  simp [isWordChar, this]

/-- Through `subResumoAux true` (previous character is a word character, so
no deletion can begin), a case-insensitive all-letter pattern followed by a
colon at the head of the output must already be at the head of the input. -/
lemma subResumoAux_true_prefix (pat : List Char)
    (hpat : ∀ p ∈ pat, ∀ c : Char, lowChar c = p → isWordChar c = true) :
    ∀ cs : List Char,
      startsWithCI (pat ++ [':']) (subResumoAux true cs) = true →
      startsWithCI (pat ++ [':']) cs = true := by
  induction pat with
  | nil =>
    intro cs h
    cases cs with
    | nil => simp [subResumoAux, startsWithCI] at h
    | cons d ds =>
      rw [subResumoAux_true_cons] at h
      simp only [List.nil_append, startsWithCI, Bool.and_eq_true] at h ⊢
      exact h
  | cons p ps ih =>
    intro cs h
    cases cs with
    | nil => simp [subResumoAux, startsWithCI] at h
    | cons d ds =>
      rw [subResumoAux_true_cons] at h
      simp only [List.cons_append, startsWithCI, Bool.and_eq_true] at h ⊢
      obtain ⟨hd, htail⟩ := h
      have hword : isWordChar d = true :=
        hpat p (List.mem_cons_self _ _) d (eq_of_beq hd)
      rw [hword] at htail
      exact ⟨hd, ih (fun q hq => hpat q (List.mem_cons_of_mem _ hq)) ds htail⟩

/-- A string that starts (case-insensitively) with `resumo:` is matched by
`matchRC`. -/
lemma matchRC_of_startsWith {l : List Char}
    (h : startsWithCI "resumo:".toList l = true) :
    ∃ r, matchRC l = some r := by
  match l with
  | [] => simp [startsWithCI] at h
  | [c1] => simp [startsWithCI] at h
  | [c1, c2] => simp [startsWithCI] at h
  | [c1, c2, c3] => simp [startsWithCI] at h
  | [c1, c2, c3, c4] => simp [startsWithCI] at h
  | [c1, c2, c3, c4, c5] => simp [startsWithCI] at h
  | [c1, c2, c3, c4, c5, c6] => simp [startsWithCI] at h
  | c1 :: c2 :: c3 :: c4 :: c5 :: c6 :: c7 :: rest =>
    have hpat : "resumo:".toList =
        ['r', 'e', 's', 'u', 'm', 'o', ':'] := by decide
    rw [hpat] at h
    simp only [startsWithCI, Bool.and_eq_true] at h
    obtain ⟨h1, h2, h3, h4, h5, h6, h7, -⟩ := h
    have hc7 : c7 = ':' := lowChar_eq_colon (eq_of_beq h7)
    refine ⟨List.dropWhile pyIsSpace rest, ?_⟩
    show (if (lowChar c1 == 'r' && lowChar c2 == 'e' && lowChar c3 == 's' &&
        lowChar c4 == 'u' && lowChar c5 == 'm' && lowChar c6 == 'o') = true then
        (match List.dropWhile pyIsSpace (c7 :: rest) with
         | ':' :: r3 => some (List.dropWhile pyIsSpace r3)
         | _ => none)
      else none) = some (List.dropWhile pyIsSpace rest)
    rw [if_pos (by simp [h1, h2, h3, h4, h5, h6])]
    have hdw : List.dropWhile pyIsSpace (c7 :: rest) = c7 :: rest := by
      rw [List.dropWhile_cons, if_neg (by rw [hc7]; decide)]
    rw [hdw, hc7]
    rfl

lemma subResumoAux_nil (pw : Bool) : subResumoAux pw [] = [] := by
  rw [subResumoAux]

lemma tail_last_cond {a0 : Char} {as a' : List Char} {c' : Char}
    (ha : a0 :: as = a' ++ [c']) (hw : isWordChar c' = false) :
    (as = [] ∧ isWordChar a0 = false) ∨
      ∃ b d, as = b ++ [d] ∧ isWordChar d = false := by
  cases a' with
  | nil =>
    simp only [List.nil_append, List.cons.injEq] at ha
    left
    exact ⟨ha.2, ha.1 ▸ hw⟩
  | cons y ys =>
    rw [List.cons_append] at ha
    injection ha with h1 h2
    right
    exact ⟨ys, c', h2, hw⟩

/-- Main invariant of the global `resumo:` removal: in the output of
`subResumoAux`, no suffix that begins at the start (with non-word context)
or right after a non-word character starts with a case-insensitive
`resumo:`. -/
lemma subResumo_no_marker :
    ∀ (n : Nat) (pw : Bool) (l a r : List Char), l.length ≤ n →
      subResumoAux pw l = a ++ r →
      ((a = [] ∧ pw = false) ∨
        ∃ a' c, a = a' ++ [c] ∧ isWordChar c = false) →
      startsWithCI "resumo:".toList r = false := by
  intro n
  induction n with
  | zero =>
    intro pw l a r hlen heq _
    have : l = [] := by
      cases l with
      | nil => rfl
      | cons c cs => simp at hlen
    subst this
    rw [subResumoAux_nil] at heq
    have : r = [] := by
      cases a with
      | nil => simpa using heq.symm
      | cons x xs => simp at heq
    subst this
    decide
  | succ n ih =>
    intro pw l a r hlen heq hcond
    cases l with
    | nil =>
      rw [subResumoAux_nil] at heq
      have : r = [] := by
        cases a with
        | nil => simpa using heq.symm
        | cons x xs => simp at heq
      subst this
      decide
    | cons c cs =>
      have hcs : cs.length ≤ n := by
        simp at hlen
        omega
      cases pw with
      | true =>
        rw [subResumoAux_true_cons] at heq
        cases a with
        | nil =>
          rcases hcond with ⟨-, hpw⟩ | ⟨a', c', ha, -⟩
          · exact absurd hpw (by simp)
          · simp at ha
        | cons a0 as =>
          rw [List.cons_append] at heq
          injection heq with h1 h2
          rcases hcond with ⟨ha, -⟩ | ⟨a', c', ha, hw⟩
          · simp at ha
          · exact ih (isWordChar c) cs as r hcs h2
              (by
                subst h1
                rcases tail_last_cond ha hw with ⟨hnil, hword⟩ | hex
                · exact Or.inl ⟨hnil, hword⟩
                · exact Or.inr hex)
      | false =>
        cases hm : matchRC (c :: cs) with
        | some rest =>
          rw [subResumoAux_false_cons_some hm] at heq
          have hrlen : rest.length ≤ n := by
            have := matchRC_length hm
            simp at this hlen
            omega
          exact ih false rest a r hrlen heq hcond
        | none =>
          rw [subResumoAux_false_cons_none hm] at heq
          cases a with
          | nil =>
            simp only [List.nil_append] at heq
            by_contra hcon
            rw [Bool.not_eq_false] at hcon
            rw [← heq] at hcon
            have hpat : "resumo:".toList =
                'r' :: ("esumo".toList ++ [':']) := by decide
            rw [hpat] at hcon
            simp only [startsWithCI, Bool.and_eq_true] at hcon
            obtain ⟨hd, htail⟩ := hcon
            have hword : isWordChar c = true :=
              isWordChar_of_lowChar_letter (by decide) (eq_of_beq hd)
            rw [hword] at htail
            have hcs' : startsWithCI ("esumo".toList ++ [':']) cs = true :=
              subResumoAux_true_prefix "esumo".toList
                (by
                  intro p hp
                  fin_cases hp <;>
                    exact fun c hc =>
                      isWordChar_of_lowChar_letter (by decide) hc)
                cs htail
            have hfull : startsWithCI "resumo:".toList (c :: cs) = true := by
              rw [hpat]
              simp only [startsWithCI, Bool.and_eq_true]
              exact ⟨hd, hcs'⟩
            obtain ⟨rr, hrr⟩ := matchRC_of_startsWith hfull
            rw [hm] at hrr
            exact absurd hrr (by simp)
          | cons a0 as =>
            rw [List.cons_append] at heq
            injection heq with h1 h2
            rcases hcond with ⟨ha, -⟩ | ⟨a', c', ha, hw⟩
            · simp at ha
            · exact ih (isWordChar c) cs as r hcs h2
                (by
                  subst h1
                  rcases tail_last_cond ha hw with ⟨hnil, hword⟩ | hex
                  · exact Or.inl ⟨hnil, hword⟩
                  · exact Or.inr hex)

lemma splitAux_nil (cur : List Char) (pp : Bool) :
    splitAux cur pp [] = [cur.reverse] := by
  rw [splitAux]

lemma splitAux_cons_sep {cur : List Char} {pp : Bool} {c : Char}
    {cs : List Char} (h : (pp && pyIsSpace c) = true) :
    splitAux cur pp (c :: cs) =
      cur.reverse :: splitAux [] false (List.dropWhile pyIsSpace cs) := by
  rw [splitAux, if_pos h]

lemma splitAux_cons_copy {cur : List Char} {pp : Bool} {c : Char}
    {cs : List Char} (h : (pp && pyIsSpace c) = false) :
    splitAux cur pp (c :: cs) = splitAux (c :: cur) (isPunct c) cs := by
  rw [splitAux, if_neg (by simp [h])]

lemma mem_takeWhile_sat {p : Char → Bool} {l : List Char} {c : Char}
    (h : c ∈ List.takeWhile p l) : p c = true := by
  induction l with
  | nil => simp at h
  | cons x xs ih =>
    rw [List.takeWhile_cons] at h
    by_cases hp : p x = true
    · rw [if_pos hp] at h
      rcases List.mem_cons.mp h with rfl | h2
      · exact hp
      · exact ih h2
    · rw [if_neg hp] at h
      simp at h

/-- Every piece produced by the sentence split is an infix whose left context
is the pending accumulator or ends in a whitespace character. -/
lemma splitAux_mem_decomp :
    ∀ (n : Nat) (l cur : List Char) (pp : Bool) (s : List Char),
      l.length ≤ n → s ∈ splitAux cur pp l →
      (∃ pre b, s = cur.reverse ++ pre ∧ l = pre ++ b) ∨
      (∃ A B, l = A ++ s ++ B ∧
        ∃ A' c, A = A' ++ [c] ∧ pyIsSpace c = true) := by
  intro n
  induction n with
  | zero =>
    intro l cur pp s hlen hmem
    have : l = [] := by
      cases l with
      | nil => rfl
      | cons c cs => simp at hlen
    subst this
    rw [splitAux_nil] at hmem
    rcases List.mem_cons.mp hmem with rfl | h2
    · exact Or.inl ⟨[], [], by simp, rfl⟩
    · simp at h2
  | succ n ih =>
    intro l cur pp s hlen hmem
    cases l with
    | nil =>
      rw [splitAux_nil] at hmem
      rcases List.mem_cons.mp hmem with rfl | h2
      · exact Or.inl ⟨[], [], by simp, rfl⟩
      · simp at h2
    | cons c cs =>
      have hlcs : cs.length ≤ n := by simp at hlen; omega
      by_cases hsep : (pp && pyIsSpace c) = true
      · rw [splitAux_cons_sep hsep] at hmem
        have hspc : pyIsSpace c = true := by
          simp at hsep
          exact hsep.2
        rcases List.mem_cons.mp hmem with rfl | h2
        · exact Or.inl ⟨[], c :: cs, by simp, rfl⟩
        · have hdlen : (List.dropWhile pyIsSpace cs).length ≤ n := by
            have := length_dropWhile_le pyIsSpace cs
            omega
          have hAconc : ∃ l2 d, c :: List.takeWhile pyIsSpace cs = l2 ++ [d] ∧
              pyIsSpace d = true := by
            rcases List.eq_nil_or_concat (c :: List.takeWhile pyIsSpace cs)
              with hnil | ⟨l2, d, hcc⟩
            · simp at hnil
            · have hcc' : c :: List.takeWhile pyIsSpace cs = l2 ++ [d] := by
                simpa [List.concat_eq_append] using hcc
              refine ⟨l2, d, hcc', ?_⟩
              have hdmem : d ∈ c :: List.takeWhile pyIsSpace cs := by
                rw [hcc']
                simp
              rcases List.mem_cons.mp hdmem with rfl | hdm
              · exact hspc
              · exact mem_takeWhile_sat hdm
          rcases ih (List.dropWhile pyIsSpace cs) [] false s hdlen h2 with
            ⟨pre, b, hs, hl⟩ | ⟨A, B, hl, A', c', hA, hc'⟩
          · right
            have hs' : s = pre := by simpa using hs
            subst hs'
            obtain ⟨l2, d, hcc', hd⟩ := hAconc
            refine ⟨c :: List.takeWhile pyIsSpace cs, b, ?_, l2, d, hcc', hd⟩
            simp only [List.cons_append, List.append_assoc]
            congr 1
            rw [← hl, List.takeWhile_append_dropWhile]
          · right
            refine ⟨c :: List.takeWhile pyIsSpace cs ++ A, B, ?_,
              (c :: List.takeWhile pyIsSpace cs) ++ A', c', ?_, hc'⟩
            · rw [List.append_assoc] at hl
              simp only [List.cons_append, List.append_assoc]
              congr 1
              rw [← hl, List.takeWhile_append_dropWhile]
            · rw [hA]
              simp [List.append_assoc]
      · rw [splitAux_cons_copy (by simpa using hsep)] at hmem
        rcases ih cs (c :: cur) (isPunct c) s hlcs hmem with
          ⟨pre, b, hs, hl⟩ | ⟨A, B, hl, A', c', hA, hc'⟩
        · left
          refine ⟨c :: pre, b, ?_, ?_⟩
          · rw [hs]
            simp
          · rw [hl]
            simp
        · right
          exact ⟨c :: A, B, by rw [hl]; simp [List.append_assoc],
            c :: A', c', by rw [hA]; simp, hc'⟩

lemma splitSentences_decomp {t s : List Char} (h : s ∈ splitSentences t) :
    ∃ A B, t = A ++ s ++ B ∧
      (A = [] ∨ ∃ A' c, A = A' ++ [c] ∧ pyIsSpace c = true) := by
  rcases splitAux_mem_decomp t.length t [] false s le_rfl h with
    ⟨pre, b, hs, hl⟩ | ⟨A, B, hl, A', c', hA, hc'⟩
  · simp at hs
    exact ⟨[], b, by rw [hl, hs]; simp, Or.inl rfl⟩
  · exact ⟨A, B, hl, Or.inr ⟨A', c', hA, hc'⟩⟩

lemma pyIsSpace_not_word {c : Char} (h : pyIsSpace c = true) :
    isWordChar c = false := by
  simp only [pyIsSpace, Bool.or_eq_true, beq_iff_eq] at h
  rcases h with ((((rfl | rfl) | rfl) | rfl) | rfl) | rfl <;> decide

lemma inQuoteSet_not_word {c : Char} (h : inQuoteSet c = true) :
    isWordChar c = false := by
  simp only [inQuoteSet, Bool.or_eq_true, beq_iff_eq] at h
  rcases h with ((((rfl | rfl) | rfl) | rfl) | rfl) | rfl <;> decide

/-- "Empty, or ends in a non-word character" — the left-context property
that rules out a surviving `resumo:` occurrence. -/
def lastNW (P : List Char) : Prop :=
  P = [] ∨ ∃ P' c, P = P' ++ [c] ∧ isWordChar c = false

lemma lastNW_append_all (P tw : List Char) (hP : lastNW P)
    (htw : ∀ e ∈ tw, isWordChar e = false) : lastNW (P ++ tw) := by
  rcases List.eq_nil_or_concat tw with rfl | ⟨t2, e, hcc⟩
  · simpa using hP
  · have h2 : tw = t2 ++ [e] := by simpa [List.concat_eq_append] using hcc
    right
    exact ⟨P ++ t2, e, by rw [h2]; simp, htw e (by rw [h2]; simp)⟩

lemma lastNW_append {P con : List Char} (hP : lastNW P) (hcon : lastNW con) :
    lastNW (P ++ con) := by
  rcases hcon with rfl | ⟨con', c, rfl, hw⟩
  · simpa using hP
  · exact Or.inr ⟨P ++ con', c, by simp, hw⟩

lemma rstripP_decomp (p : Char → Bool) (l : List Char) :
    ∃ suf, l = rstripP p l ++ suf := by
  refine ⟨(List.takeWhile p l.reverse).reverse, ?_⟩
  unfold rstripP
  rw [← List.reverse_append, List.takeWhile_append_dropWhile,
    List.reverse_reverse]

lemma matchLR_decomp {s r : List Char} (h : matchLR s = some r) :
    ∃ con, s = con ++ r ∧ lastNW con ∧ con ≠ [] := by
  unfold matchLR at h
  split at h
  · rename_i c1 c2 c3 c4 c5 c6 rest heq1
    split at h
    · split at h
      · rename_i d ds heq2
        split at h
        · rename_i hd
          injection h with h
          have hdnw : isWordChar d = false := by
            simp only [Bool.or_eq_true, beq_iff_eq] at hd
            rcases hd with (rfl | rfl) | rfl <;> decide
          have hs : s = List.takeWhile pyIsSpace s ++
              (c1 :: c2 :: c3 :: c4 :: c5 :: c6 :: rest) := by
            rw [← heq1, List.takeWhile_append_dropWhile]
          have hrest : rest = List.takeWhile pyIsSpace rest ++ (d :: ds) := by
            rw [← heq2, List.takeWhile_append_dropWhile]
          have hds : ds = List.takeWhile pyIsSpace ds ++ r := by
            rw [← h, List.takeWhile_append_dropWhile]
          refine ⟨List.takeWhile pyIsSpace s ++
            [c1, c2, c3, c4, c5, c6] ++ List.takeWhile pyIsSpace rest ++
            [d] ++ List.takeWhile pyIsSpace ds, ?_, ?_, by simp⟩
          · conv_lhs => rw [hs, hrest, hds]
            simp [List.append_assoc]
          · apply lastNW_append_all
            · exact Or.inr ⟨List.takeWhile pyIsSpace s ++
                [c1, c2, c3, c4, c5, c6] ++ List.takeWhile pyIsSpace rest, d,
                rfl, hdnw⟩
            · intro e he
              exact pyIsSpace_not_word (mem_takeWhile_sat he)
        · simp at h
      · simp at h
    · simp at h
  · simp at h

/-- Per-sentence normalization decomposition: the processed sentence is an
infix of the sentence whose removed prefix is empty or ends in a non-word
character. -/
lemma processSentence_decomp (s : List Char) :
    ∃ P Q, s = P ++ processSentence s ++ Q ∧ lastNW P := by
  have hq1 : s = List.takeWhile inQuoteSet s ++ List.dropWhile inQuoteSet s := by
    rw [List.takeWhile_append_dropWhile]
  obtain ⟨qsuf, hq2⟩ := rstripP_decomp inQuoteSet (List.dropWhile inQuoteSet s)
  have hq2' : List.dropWhile inQuoteSet s = stripQuotes s ++ qsuf := hq2
  have hqpre : lastNW (List.takeWhile inQuoteSet s) := by
    apply lastNW_append_all []
    · exact Or.inl rfl
    · intro e he
      exact inQuoteSet_not_word (mem_takeWhile_sat he)
  have hsub : ∃ con, stripQuotes s = con ++ subLeadingResumo (stripQuotes s) ∧
      lastNW con := by
    unfold subLeadingResumo
    cases hm : matchLR (stripQuotes s) with
    | none => exact ⟨[], by simp, Or.inl rfl⟩
    | some r =>
      obtain ⟨con, hcon, hnw, -⟩ := matchLR_decomp hm
      exact ⟨con, by simpa using hcon, hnw⟩
  obtain ⟨con, hcon, hconNW⟩ := hsub
  have ht1 : subLeadingResumo (stripQuotes s) =
      List.takeWhile pyIsSpace (subLeadingResumo (stripQuotes s)) ++
        List.dropWhile pyIsSpace (subLeadingResumo (stripQuotes s)) := by
    rw [List.takeWhile_append_dropWhile]
  obtain ⟨suf3, ht2⟩ := rstripP_decomp pyIsSpace
    (List.dropWhile pyIsSpace (subLeadingResumo (stripQuotes s)))
  have ht2' : List.dropWhile pyIsSpace (subLeadingResumo (stripQuotes s)) =
      processSentence s ++ suf3 := ht2
  refine ⟨List.takeWhile inQuoteSet s ++ con ++
      List.takeWhile pyIsSpace (subLeadingResumo (stripQuotes s)),
    suf3 ++ qsuf, ?_, ?_⟩
  · conv_lhs => rw [hq1]
    conv_lhs => rw [hq2']
    conv_lhs => rw [hcon]
    conv_lhs => rw [ht1]
    conv_lhs => rw [ht2']
    simp [List.append_assoc]
  · apply lastNW_append_all
    · exact lastNW_append hqpre hconNW
    · intro e he
      exact pyIsSpace_not_word (mem_takeWhile_sat he)

/-- Every element of the accumulation loop's output is either from the
accumulator or the normalization of one of the sentences. -/
lemma ppLoop_mem (m : Int) :
    ∀ (sents : List (List Char)) (seen acc : List (List Char))
      (x : List Char), x ∈ ppLoop m seen acc sents →
      x ∈ acc ∨ ∃ s ∈ sents, x = processSentence s := by
  intro sents
  induction sents with
  | nil =>
    intro seen acc x hx
    exact Or.inl hx
  | cons s rest ih =>
    intro seen acc x hx
    rw [ppLoop] at hx
    by_cases h1 : stripQuotes s = []
    · rw [if_pos h1] at hx
      rcases ih _ _ _ hx with h | ⟨s', hs', hx'⟩
      · exact Or.inl h
      · exact Or.inr ⟨s', List.mem_cons_of_mem _ hs', hx'⟩
    · rw [if_neg h1] at hx
      by_cases h2 : (trimList (subLeadingResumo (stripQuotes s))).length < 3 ∨
          dedupKey (trimList (subLeadingResumo (stripQuotes s))) ∈ seen
      · rw [if_pos h2] at hx
        rcases ih _ _ _ hx with h | ⟨s', hs', hx'⟩
        · exact Or.inl h
        · exact Or.inr ⟨s', List.mem_cons_of_mem _ hs', hx'⟩
      · rw [if_neg h2] at hx
        by_cases h3 : m ≤ ((acc ++
            [trimList (subLeadingResumo (stripQuotes s))]).length : Int)
        · rw [if_pos h3] at hx
          rcases List.mem_append.mp hx with h | h
          · exact Or.inl h
          · simp at h
            exact Or.inr ⟨s, List.mem_cons_self _ _, h⟩
        · rw [if_neg h3] at hx
          rcases ih _ _ _ hx with h | ⟨s', hs', hx'⟩
          · rcases List.mem_append.mp h with h | h
            · exact Or.inl h
            · simp at h
              exact Or.inr ⟨s, List.mem_cons_self _ _, h⟩
          · exact Or.inr ⟨s', List.mem_cons_of_mem _ hs', hx'⟩

lemma startsWithCI_append {pat h x : List Char}
    (hs : startsWithCI pat h = true) : startsWithCI pat (h ++ x) = true := by
  induction pat generalizing h with
  | nil => rfl
  | cons p ps ih =>
    cases h with
    | nil => simp [startsWithCI] at hs
    | cons c cs =>
      simp only [startsWithCI, Bool.and_eq_true] at hs
      simp only [List.cons_append, startsWithCI, Bool.and_eq_true]
      exact ⟨hs.1, ih hs.2⟩

lemma startsWithCI_of_append_space {pat h R : List Char}
    (hpat : ∀ p ∈ pat, p ≠ ' ')
    (hR : R = [] ∨ ∃ R', R = ' ' :: R')
    (hs : startsWithCI pat (h ++ R) = true) : startsWithCI pat h = true := by
  induction pat generalizing h with
  | nil => rfl
  | cons p ps ih =>
    cases h with
    | nil =>
      rcases hR with rfl | ⟨R', rfl⟩
      · simp [startsWithCI] at hs
      · simp only [List.nil_append, startsWithCI, Bool.and_eq_true] at hs
        have : lowChar ' ' = ' ' := by decide
        rw [this] at hs
        exact absurd (eq_of_beq hs.1).symm (hpat p (List.mem_cons_self _ _))
    | cons c cs =>
      simp only [List.cons_append, startsWithCI, Bool.and_eq_true] at hs
      simp only [startsWithCI, Bool.and_eq_true]
      exact ⟨hs.1, ih (fun q hq => hpat q (List.mem_cons_of_mem _ hq)) hs.2⟩

/-- The join of a non-empty list of pieces (plus the optional truncation
suffix) decomposes as its head followed by nothing or a space-led tail. -/
lemma joinSep_head_decomp (h : List Char) (rest : List (List Char))
    (dots : List Char) (hdots : dots = [] ∨ dots = " ...".toList) :
    ∃ R, joinSep [' '] (h :: rest) ++ dots = h ++ R ∧
      (R = [] ∨ ∃ R', R = ' ' :: R') := by
  cases rest with
  | nil =>
    rcases hdots with rfl | rfl
    · exact ⟨[], by simp [joinSep], Or.inl rfl⟩
    · exact ⟨" ...".toList, by simp [joinSep], Or.inr ⟨"...".toList, rfl⟩⟩
  | cons y ys =>
    refine ⟨' ' :: (joinSep [' '] (y :: ys) ++ dots), ?_,
      Or.inr ⟨joinSep [' '] (y :: ys) ++ dots, rfl⟩⟩
    show (h ++ [' '] ++ joinSep [' '] (y :: ys)) ++ dots = _
    simp [List.append_assoc]

/-- Claim C7: for every raw model output and every `max_sentences`, the
summary post-processing never returns a string starting (case-insensitively)
with `"Resumo:"`. -/
theorem claim_C7 (raw : List Char) (m : Int) :
    startsWithCI "resumo:".toList (_postprocess_summary raw m) = false := by
  by_cases hraw : raw = []
  · subst hraw
    rw [show _postprocess_summary [] m = [] from rfl]
    decide
  · simp only [_postprocess_summary]
    rw [if_neg hraw]
    cases hout : ppLoop m [] []
        (splitSentences (subResumoColon (trimList (collapseWs raw)))) with
    | nil =>
      rw [if_pos rfl]
      decide
    | cons h rest =>
      rw [if_neg (by simp)]
      by_contra hcon
      rw [Bool.not_eq_false] at hcon
      obtain ⟨R, hR1, hR2⟩ := joinSep_head_decomp h rest
        (if m < ((splitSentences (subResumoColon
            (trimList (collapseWs raw)))).length : Int)
         then " ...".toList else [])
        (by
          by_cases hd : m < ((splitSentences (subResumoColon
              (trimList (collapseWs raw)))).length : Int)
          · rw [if_pos hd]
            exact Or.inr rfl
          · rw [if_neg hd]
            exact Or.inl rfl)
      rw [hR1] at hcon
      have hh : startsWithCI "resumo:".toList h = true :=
        startsWithCI_of_append_space (by decide) hR2 hcon
      obtain hacc | ⟨s, hs, hps⟩ := ppLoop_mem m _ _ _ h
        (by rw [hout]; exact List.mem_cons_self _ _)
      · simp at hacc
      · obtain ⟨A, B, hAB, hA⟩ := splitSentences_decomp hs
        obtain ⟨P, Q, hPQ, hP⟩ := processSentence_decomp s
        subst hps
        have hfull : startsWithCI "resumo:".toList
            (processSentence s ++ (Q ++ B)) = true := startsWithCI_append hh
        have hAP : ((A ++ P = [] ∧ false = false) ∨
            ∃ a' c, A ++ P = a' ++ [c] ∧ isWordChar c = false) := by
          rcases hP with rfl | ⟨P', c, rfl, hw⟩
          · rcases hA with rfl | ⟨A', c, hA', hsp⟩
            · exact Or.inl ⟨by simp, rfl⟩
            · exact Or.inr ⟨A', c, by simp [hA'], pyIsSpace_not_word hsp⟩
          · exact Or.inr ⟨A ++ P', c, by simp, hw⟩
        have heq : subResumoAux false (trimList (collapseWs raw)) =
            (A ++ P) ++ (processSentence s ++ (Q ++ B)) := by
          show subResumoColon (trimList (collapseWs raw)) = _
          rw [hAB]
          conv_lhs => rw [hPQ]
          simp [List.append_assoc]
        have hfalse := subResumo_no_marker
          (trimList (collapseWs raw)).length false
          (trimList (collapseWs raw)) (A ++ P)
          (processSentence s ++ (Q ++ B)) le_rfl heq hAP
        rw [hfull] at hfalse
        exact absurd hfalse (by simp)
